import Mathlib

/-!
Shallow embedding of the `xdg-desktop-entry` Rust crate (`src/lib.rs`) and
verification of its natural-language specification.

Modelling conventions:
* Rust `String`/`&str` values are modelled as `List Char` (`Str`), so byte
  indices of ASCII separator searches become character indices.
* Rust `HashMap` values are modelled as insertion-ordered association lists;
  all lookups are by structural key equality, matching `HashMap` lookup.
  (Iteration order of a Rust `HashMap` is unspecified; the association list
  fixes one linearization.)
* Fallible Rust code returns `Except DesktopEntryError`; a reachable Rust
  panic (out-of-range slice) is modelled by an outer `Option`, with `none`
  standing for a panic.
* Rust `str::trim` removes Unicode whitespace; the model restricts to the
  ASCII whitespace characters that can occur in the inputs considered.
-/

set_option maxRecDepth 20000
set_option linter.unnecessarySeqFocus false

namespace DesktopEntrySpec

/-- Strings as lists of characters. -/
abbrev Str := List Char

/-- Shorthand converting a Lean string literal to the `Str` model. -/
def S (s : String) : Str := s.data

/-- ASCII whitespace, modelling the whitespace removed by Rust `str::trim`. -/
def isWs (c : Char) : Bool := c = ' ' || c = '\t' || c = '\n' || c = '\r'

/-- Characters allowed in key names by `Parser::parse` (line 1141):
`c.is_ascii_alphanumeric() || c == '-'`. -/
def isKeyChar (c : Char) : Bool := c.isAlphanum || c = '-'

/-- Rust `str::trim_start`. -/
def trimLeft (s : Str) : Str := s.dropWhile isWs

/-- Rust `str::trim_end`. -/
def trimRight : Str → Str
  | [] => []
  | c :: rest =>
    match trimRight rest with
    | [] => if isWs c then [] else [c]
    | r => c :: r

/-- Rust `str::trim`. -/
def trim (s : Str) : Str := trimRight (trimLeft s)

/-- Prepend a character to the first segment of a split result. -/
def splitCons (x : Char) : List Str → List Str
  | [] => [[x]]
  | h :: t => (x :: h) :: t

/-- Split a string at every occurrence of `c` (Rust `str::split`),
producing `n + 1` segments for `n` separators. -/
def splitChar (c : Char) : Str → List Str
  | [] => [[]]
  | x :: xs =>
    if x = c then [] :: splitChar c xs
    else splitCons x (splitChar c xs)

/-- Index of the first occurrence of `c` (Rust `str::find` for a `char`). -/
def idxOf? (c : Char) : Str → Option Nat
  | [] => none
  | x :: xs => if x = c then some 0 else (idxOf? c xs).map (· + 1)

/-- Index of the last occurrence of `c` (Rust `str::rfind` for a `char`). -/
def idxOfLast? (c : Char) (s : Str) : Option Nat :=
  (idxOf? c s.reverse).map (fun i => s.length - 1 - i)

/-- Split at the first occurrence of `c`, returning the parts before and
after it (models `line.find('=')` followed by the two slices). -/
def splitFirst (c : Char) : Str → Option (Str × Str)
  | [] => none
  | x :: xs =>
    if x = c then some ([], xs)
    else (splitFirst c xs).map (fun p => (x :: p.1, p.2))

/-- Remove one trailing carriage return, as Rust `str::lines` does with the
`\r` of a `\r\n` line terminator. -/
def stripCR (l : Str) : Str := if l.getLast? = some '\r' then l.dropLast else l

/-- Rust `str::lines`: split at `\n`, drop a final empty segment (the
optional final line ending), and strip one trailing `\r` per line. -/
def rustLines (s : Str) : List Str :=
  let ps := splitChar '\n' s
  (if ps.getLast? = some [] then ps.dropLast else ps).map stripCR

/-- Association-list lookup by structural equality (models `HashMap::get`). -/
def alookup {α β : Type} [DecidableEq α] (k : α) : List (α × β) → Option β
  | [] => none
  | (k', v) :: rest => if k' = k then some v else alookup k rest

/-- Remove the pair with the given key (models `HashMap::remove`; keys are
unique in every map the parser builds). -/
def eraseKey {α β : Type} [DecidableEq α] (k : α) (m : List (α × β)) : List (α × β) :=
  m.filter (fun p => p.1 ≠ k)

/-- Insert, replacing the value at an existing key in place (models
`HashMap::insert` on the localized-variant maps). -/
def insertReplace {α β : Type} [DecidableEq α] (m : List (α × β)) (k : α) (v : β) :
    List (α × β) :=
  match m with
  | [] => [(k, v)]
  | (k', v') :: rest => if k' = k then (k, v) :: rest else (k', v') :: insertReplace rest k v

-- ============================================================================
-- Error type (src/lib.rs lines 14-36)
-- ============================================================================

/-- `DesktopEntryError` from the source; the `Io` and `InvalidUtf8` variants
belong to the out-of-scope file I/O wrapper but are kept for completeness. -/
inductive DesktopEntryError : Type where
  | Io (msg : Str)
  | InvalidUtf8
  | MissingDesktopEntryGroup
  | DuplicateGroup (name : Str)
  | InvalidLine (line : Nat) (content : Str)
  | InvalidGroupHeader (line : Nat) (content : Str)
  | InvalidKeyName (line : Nat) (name : Str)
  | MissingRequiredKey (key : Str)
  | InvalidValue (key : Str) (raw : Str)
  | ValidationError (msg : Str)
deriving DecidableEq

-- ============================================================================
-- Locale (src/lib.rs lines 90-194)
-- ============================================================================

/-- `Locale` struct: `lang`, optional `country`, `encoding`, `modifier`. -/
structure Locale : Type where
  lang : Str
  country : Option Str
  encoding : Option Str
  modifier : Option Str
deriving DecidableEq

/-- `Locale::new`: just a language code. -/
def Locale.new (lang : Str) : Locale := ⟨lang, none, none, none⟩

/-- Country/language phase of `Locale::from_string` (lines 166-172): split
the remaining base at the first `_`. -/
def Locale.fromLang (base : Str) (enc mod : Option Str) : Locale :=
  match idxOf? '_' base with
  | some i => ⟨base.take i, some (base.drop (i + 1)), enc, mod⟩
  | none => ⟨base, none, enc, mod⟩

/-- Encoding phase of `Locale::from_string` (lines 146-164): split the
remaining base at the last `.`.  The Rust code's two branches
(`!modifier && base.contains('.')` and `modifier`) both perform this same
`base.rfind('.')` split. -/
def Locale.fromEnc (base : Str) (mod : Option Str) : Locale :=
  match idxOfLast? '.' base with
  | some i => Locale.fromLang (base.take i) (some (base.drop (i + 1))) mod
  | none => Locale.fromLang base none mod

/-- `Locale::from_string` (lines 130-175): modifier after the last `@`,
then encoding, country, language. -/
def Locale.fromString (s : Str) : Locale :=
  match idxOfLast? '@' s with
  | some i => Locale.fromEnc (s.take i) (some (s.drop (i + 1)))
  | none => Locale.fromEnc s none

/-- `Locale::to_string_repr` (lines 178-193). -/
def Locale.toStringRepr (l : Locale) : Str :=
  l.lang
    ++ (match l.country with | some c => '_' :: c | none => [])
    ++ (match l.encoding with | some e => '.' :: e | none => [])
    ++ (match l.modifier with | some m => '@' :: m | none => [])

-- ============================================================================
-- Localized values (src/lib.rs lines 209-404)
-- ============================================================================

/-- `LocalizedString`: default value plus locale-keyed variants. -/
structure LocalizedString : Type where
  default : Str
  localized : List (Locale × Str)
deriving DecidableEq

/-- `LocalizedString::get` (lines 240-274): the five-step matching cascade. -/
def LocalizedString.get (v : LocalizedString) (q : Locale) : Str :=
  match alookup q v.localized with
  | some val => val
  | none =>
    match (if q.country.isSome && q.modifier.isSome
           then alookup { q with country := none } v.localized else none) with
    | some val => val
    | none =>
      match (if q.modifier.isSome
             then alookup { q with modifier := none } v.localized else none) with
      | some val => val
      | none =>
        match (if q.country.isSome || q.modifier.isSome
               then alookup (Locale.new q.lang) v.localized else none) with
        | some val => val
        | none => v.default

/-- `IconString` (lines 288-341), identical shape to `LocalizedString`. -/
structure IconString : Type where
  default : Str
  localized : List (Locale × Str)
deriving DecidableEq

/-- `IconString::get` (lines 310-340): same cascade as `LocalizedString::get`. -/
def IconString.get (v : IconString) (q : Locale) : Str :=
  match alookup q v.localized with
  | some val => val
  | none =>
    match (if q.country.isSome && q.modifier.isSome
           then alookup { q with country := none } v.localized else none) with
    | some val => val
    | none =>
      match (if q.modifier.isSome
             then alookup { q with modifier := none } v.localized else none) with
      | some val => val
      | none =>
        match (if q.country.isSome || q.modifier.isSome
               then alookup (Locale.new q.lang) v.localized else none) with
        | some val => val
        | none => v.default

/-- `LocalizedStringList` (lines 352-404). -/
structure LocalizedStringList : Type where
  default : List Str
  localized : List (Locale × List Str)
deriving DecidableEq

/-- `LocalizedStringList::get` (lines 374-403): same cascade. -/
def LocalizedStringList.get (v : LocalizedStringList) (q : Locale) : List Str :=
  match alookup q v.localized with
  | some val => val
  | none =>
    match (if q.country.isSome && q.modifier.isSome
           then alookup { q with country := none } v.localized else none) with
    | some val => val
    | none =>
      match (if q.modifier.isSome
             then alookup { q with modifier := none } v.localized else none) with
      | some val => val
      | none =>
        match (if q.country.isSome || q.modifier.isSome
               then alookup (Locale.new q.lang) v.localized else none) with
        | some val => val
        | none => v.default

-- ============================================================================
-- Entry model (src/lib.rs lines 415-721)
-- ============================================================================

/-- `DesktopEntryType` (lines 416-423). -/
inductive DesktopEntryType : Type where
  | Application
  | Link
  | Directory
deriving DecidableEq

/-- `DesktopEntryType::from_str` (lines 427-434). -/
def DesktopEntryType.fromStr (s : Str) : Option DesktopEntryType :=
  if s = S "Application" then some .Application
  else if s = S "Link" then some .Link
  else if s = S "Directory" then some .Directory
  else none

/-- `DesktopEntryType::as_str` (lines 437-443). -/
def DesktopEntryType.asStr : DesktopEntryType → Str
  | .Application => S "Application"
  | .Link => S "Link"
  | .Directory => S "Directory"

/-- `Comment` (lines 452-459): a leading comment or blank line. -/
structure Comment : Type where
  line_number : Nat
  content : Str
  is_blank : Bool
deriving DecidableEq

/-- `Entry` (lines 486-493): one physical `key=value` line. -/
structure Entry : Type where
  key : Str
  locale : Option Locale
  value : Str
deriving DecidableEq

/-- The per-group entry table `HashMap<String, Vec<Entry>>`, as an
insertion-ordered association list. -/
abbrev GroupData := List (Str × List Entry)

/-- `Group` (lines 472-477). -/
structure Group : Type where
  name : Str
  entries : GroupData
deriving DecidableEq

/-- `DesktopEntry` (lines 515-721). -/
structure DesktopEntry : Type where
  entry_type : DesktopEntryType
  name : LocalizedString
  url : Option Str
  version : Option Str
  generic_name : Option LocalizedString
  no_display : Option Bool
  comment : Option LocalizedString
  icon : Option IconString
  hidden : Option Bool
  only_show_in : Option (List Str)
  not_show_in : Option (List Str)
  dbus_activatable : Option Bool
  try_exec : Option Str
  exec : Option Str
  path : Option Str
  terminal : Option Bool
  actions : Option (List Str)
  mime_type : Option (List Str)
  categories : Option (List Str)
  implements : Option (List Str)
  keywords : Option LocalizedStringList
  startup_notify : Option Bool
  startup_wm_class : Option Str
  prefers_non_default_gpu : Option Bool
  single_main_window : Option Bool
  additional_groups : List (Str × Group)
  unknown_keys : List (Str × List Entry)
  comments : List Comment
deriving DecidableEq

/-- `DesktopEntry::new` (lines 736-767). -/
def DesktopEntry.new (entry_type : DesktopEntryType) (name : LocalizedString) :
    DesktopEntry :=
  { entry_type := entry_type, name := name, url := none, version := none,
    generic_name := none, no_display := none, comment := none, icon := none,
    hidden := none, only_show_in := none, not_show_in := none,
    dbus_activatable := none, try_exec := none, exec := none, path := none,
    terminal := none, actions := none, mime_type := none, categories := none,
    implements := none, keywords := none, startup_notify := none,
    startup_wm_class := none, prefers_non_default_gpu := none,
    single_main_window := none, additional_groups := [], unknown_keys := [],
    comments := [] }

/-- `DesktopEntry::validate` (lines 1027-1049): two rules checked in order,
first failure wins (the Rust early returns are an if/else chain). -/
def DesktopEntry.validate (d : DesktopEntry) : Except DesktopEntryError Unit :=
  if d.entry_type = .Link ∧ d.url = none then
    .error (.ValidationError (S "URL is required for Link type entries"))
  else if d.entry_type = .Application ∧ d.exec = none ∧
      d.dbus_activatable.getD false = false then
    .error (.ValidationError
      (S "Either Exec key or DBusActivatable=true is required for Application type"))
  else
    .ok ()

-- ============================================================================
-- Parser (src/lib.rs lines 1056-1437)
-- ============================================================================

/-- The key of the mandatory main group. -/
def dE : Str := S "Desktop Entry"

/-- Result of extracting key and optional locale from the part of a line
before the first `=` (lines 1128-1138).  `panic` marks the out-of-range
slice `key_part[bracket_start + 1..bracket_end]` taken when the first `]`
precedes the first `[` (`bracket_start + 1 > bracket_end`). -/
inductive KeyExtract : Type where
  | panic
  | invalid
  | ok (key : Str) (locale : Option Locale)
deriving DecidableEq

/-- Key/locale extraction from a key part (lines 1128-1138). -/
def extractKeyLocale (kp : Str) : KeyExtract :=
  match idxOf? '[' kp with
  | none => .ok (trim kp) none
  | some bs =>
    match idxOf? ']' kp with
    | none => .invalid
    | some be =>
      if bs + 1 > be then .panic
      else .ok (trim (kp.take bs)) (some (Locale.fromString ((kp.take be).drop (bs + 1))))

/-- Parser state of the line loop in `Parser::parse` (lines 1068-1070):
accumulated groups, current group name, and leading comments. -/
structure PState : Type where
  groups : List (Str × GroupData)
  current : Option Str
  comments : List Comment
deriving DecidableEq

/-- Append an entry to the `Vec` for a key, creating the key on first use
(models `group.entry(key).or_insert_with(Vec::new).push(entry)`). -/
def pushEntry (gd : GroupData) (k : Str) (e : Entry) : GroupData :=
  match gd with
  | [] => [(k, [e])]
  | (k', es) :: rest =>
    if k' = k then (k', es ++ [e]) :: rest else (k', es) :: pushEntry rest k e

/-- Apply a function to the data of the named group (models
`groups.get_mut(group_name).unwrap()`; the `unwrap` cannot fail because
`current_group` is always a key of `groups`). -/
def updateGroup (gs : List (Str × GroupData)) (name : Str) (f : GroupData → GroupData) :
    List (Str × GroupData) :=
  match gs with
  | [] => []
  | (n, gd) :: rest =>
    if n = name then (n, f gd) :: rest else (n, gd) :: updateGroup rest name f

/-- One iteration of the line loop of `Parser::parse` (lines 1074-1160).
`none` models a panic. -/
def stepLine (n : Nat) (st : PState) (line : Str) : Option (Except DesktopEntryError PState) :=
  let t := trim line
  if t = [] then
    some (.ok (if st.current = none then
      { st with comments := st.comments ++ [⟨n, [], true⟩] } else st))
  else if t.head? = some '#' then
    some (.ok (if st.current = none then
      { st with comments := st.comments ++ [⟨n, t.drop 1, false⟩] } else st))
  else if t.head? = some '[' then
    if t.getLast? = some ']' then
      let name := (t.drop 1).dropLast
      if (alookup name st.groups).isSome then some (.error (.DuplicateGroup name))
      else some (.ok { groups := st.groups ++ [(name, [])], current := some name
                       comments := st.comments })
    else some (.error (.InvalidGroupHeader n line))
  else
    match splitFirst '=' line with
    | none => some (.error (.InvalidLine n line))
    | some (kp, value) =>
      match extractKeyLocale kp with
      | .panic => none
      | .invalid => some (.error (.InvalidLine n line))
      | .ok key locale =>
        if ¬ key.all isKeyChar then some (.error (.InvalidKeyName n key))
        else
          match st.current with
          | some g =>
            let gs := updateGroup st.groups g (fun gd => pushEntry gd key ⟨key, locale, value⟩)
            some (.ok { st with groups := gs })
          | none => some (.error (.InvalidLine n line))

/-- The full line loop, starting at line number `n`. -/
def runLines : List Str → Nat → PState → Option (Except DesktopEntryError PState)
  | [], _, st => some (.ok st)
  | l :: ls, n, st =>
    match stepLine n st l with
    | none => none
    | some (.error e) => some (.error e)
    | some (.ok st') => runLines ls (n + 1) st'

/-- `Parser::parse_optional_string` (lines 1327-1337); the target starts as
`None`, so the in-place update is a pure function of the entry table. -/
def parseOptionalString (data : GroupData) (key : Str) : Option Str :=
  match (alookup key data).bind List.head? with
  | some e => some e.value
  | none => none

/-- `Parser::parse_optional_bool` (lines 1339-1353). -/
def parseOptionalBool (data : GroupData) (key : Str) : Option Bool :=
  match (alookup key data).bind List.head? with
  | some e =>
    if e.value = S "true" then some true
    else if e.value = S "false" then some false
    else none
  | none => none

/-- Split on `;` and drop empty segments (lines 1362-1367 and 1421-1426). -/
def splitSemi (v : Str) : List Str := (splitChar ';' v).filter (fun s => s ≠ [])

/-- `Parser::parse_optional_string_list` (lines 1355-1373). -/
def parseOptionalStringList (data : GroupData) (key : Str) : Option (List Str) :=
  match (alookup key data).bind List.head? with
  | some e =>
    let l := splitSemi e.value
    if l = [] then none else some l
  | none => none

/-- One step of the entry fold for localized strings: a tagged entry
inserts into the localized map, an untagged entry replaces the default. -/
def lsStep (acc : LocalizedString) (e : Entry) : LocalizedString :=
  match e.locale with
  | some l => { acc with localized := insertReplace acc.localized l e.value }
  | none => { acc with default := e.value }

/-- The entry fold shared by `Parser::parse` for `Name` (lines 1182-1189)
and `parse_optional_localized_string` (lines 1380-1391). -/
def buildLocalizedString (es : List Entry) : LocalizedString :=
  es.foldl lsStep ⟨[], []⟩

/-- `Parser::parse_optional_localized_string` (lines 1375-1393). -/
def parseOptionalLocalizedString (data : GroupData) (key : Str) : Option LocalizedString :=
  (alookup key data).map buildLocalizedString

/-- One step of the entry fold for icon strings. -/
def isStep (acc : IconString) (e : Entry) : IconString :=
  match e.locale with
  | some l => { acc with localized := insertReplace acc.localized l e.value }
  | none => { acc with default := e.value }

/-- The entry fold of `parse_optional_icon_string` (lines 1400-1408). -/
def buildIconString (es : List Entry) : IconString :=
  es.foldl isStep ⟨[], []⟩

/-- `Parser::parse_optional_icon_string` (lines 1395-1411). -/
def parseOptionalIconString (data : GroupData) (key : Str) : Option IconString :=
  (alookup key data).map buildIconString

/-- One step of the entry fold for localized string lists, splitting each
value on `;`. -/
def lslStep (acc : LocalizedStringList) (e : Entry) : LocalizedStringList :=
  match e.locale with
  | some l => { acc with localized := insertReplace acc.localized l (splitSemi e.value) }
  | none => { acc with default := splitSemi e.value }

/-- The entry fold of `parse_optional_localized_string_list` (lines 1418-1433). -/
def buildLocalizedStringList (es : List Entry) : LocalizedStringList :=
  es.foldl lslStep ⟨[], []⟩

/-- `Parser::parse_optional_localized_string_list` (lines 1413-1436). -/
def parseOptionalLocalizedStringList (data : GroupData) (key : Str) :
    Option LocalizedStringList :=
  (alookup key data).map buildLocalizedStringList

/-- The known-key table (lines 1281-1307). -/
def knownKeys : List Str :=
  [S "Type", S "Name", S "Version", S "GenericName", S "NoDisplay", S "Comment",
   S "Icon", S "Hidden", S "OnlyShowIn", S "NotShowIn", S "DBusActivatable",
   S "TryExec", S "Exec", S "Path", S "Terminal", S "Actions", S "MimeType",
   S "Categories", S "Implements", S "Keywords", S "StartupNotify",
   S "StartupWMClass", S "URL", S "PrefersNonDefaultGPU", S "SingleMainWindow"]

/-- The document-building phase of `Parser::parse` (lines 1162-1324). -/
def buildDoc (groups : List (Str × GroupData)) (comments : List Comment) :
    Except DesktopEntryError DesktopEntry :=
  match alookup dE groups with
  | none => .error .MissingDesktopEntryGroup
  | some md =>
    let groups' := eraseKey dE groups
    match (alookup (S "Type") md).bind List.head? with
    | none => .error (.MissingRequiredKey (S "Type"))
    | some tE =>
      match DesktopEntryType.fromStr tE.value with
      | none => .error (.InvalidValue (S "Type") tE.value)
      | some ty =>
        match alookup (S "Name") md with
        | none => .error (.MissingRequiredKey (S "Name"))
        | some nameEs =>
          .ok { entry_type := ty
                name := buildLocalizedString nameEs
                version := parseOptionalString md (S "Version")
                generic_name := parseOptionalLocalizedString md (S "GenericName")
                no_display := parseOptionalBool md (S "NoDisplay")
                comment := parseOptionalLocalizedString md (S "Comment")
                icon := parseOptionalIconString md (S "Icon")
                hidden := parseOptionalBool md (S "Hidden")
                only_show_in := parseOptionalStringList md (S "OnlyShowIn")
                not_show_in := parseOptionalStringList md (S "NotShowIn")
                dbus_activatable := parseOptionalBool md (S "DBusActivatable")
                try_exec := parseOptionalString md (S "TryExec")
                exec := parseOptionalString md (S "Exec")
                path := parseOptionalString md (S "Path")
                terminal := parseOptionalBool md (S "Terminal")
                actions := parseOptionalStringList md (S "Actions")
                mime_type := parseOptionalStringList md (S "MimeType")
                categories := parseOptionalStringList md (S "Categories")
                implements := parseOptionalStringList md (S "Implements")
                keywords := parseOptionalLocalizedStringList md (S "Keywords")
                startup_notify := parseOptionalBool md (S "StartupNotify")
                startup_wm_class := parseOptionalString md (S "StartupWMClass")
                url := parseOptionalString md (S "URL")
                prefers_non_default_gpu := parseOptionalBool md (S "PrefersNonDefaultGPU")
                single_main_window := parseOptionalBool md (S "SingleMainWindow")
                unknown_keys := md.filter (fun kv => ¬ knownKeys.contains kv.1)
                additional_groups := groups'.map (fun g => (g.1, ⟨g.1, g.2⟩))
                comments := comments }

/-- `DesktopEntry::parse` (line 785): the whole parser on an in-memory text.
`none` models a panic. -/
def parse (s : Str) : Option (Except DesktopEntryError DesktopEntry) :=
  match runLines (rustLines s) 1 ⟨[], none, []⟩ with
  | none => none
  | some (.error e) => some (.error e)
  | some (.ok st) => some (buildDoc st.groups st.comments)

-- ============================================================================
-- Serializer (src/lib.rs lines 820-1020)
-- ============================================================================

/-- Rendering of a Rust `bool` by `write!` (`true`/`false`). -/
def boolStr (b : Bool) : Str := if b then S "true" else S "false"

/-- `Vec::join(";")`. -/
def joinSemi (xs : List Str) : Str := List.intercalate [';'] xs

/-- One emitted `key=value` or `key[locale]=value` datum of the main group. -/
abbrev KV := Str × Option Locale × Str

/-- Text of one key-value line of `write_to`. -/
def mkLine : KV → Str
  | (k, none, v) => k ++ '=' :: v
  | (k, some l, v) => k ++ '[' :: (Locale.toStringRepr l ++ ']' :: '=' :: v)

/-- Locale-tagged lines of a localized map. -/
def locLines (key : Str) (m : List (Locale × Str)) : List KV :=
  m.map (fun p => (key, some p.1, p.2))

/-- Line of an optional string field. -/
def optLine (key : Str) : Option Str → List KV
  | some v => [(key, none, v)]
  | none => []

/-- Line of an optional boolean field. -/
def optBoolLine (key : Str) : Option Bool → List KV
  | some b => [(key, none, boolStr b)]
  | none => []

/-- Line of an optional list field. -/
def optListLine (key : Str) : Option (List Str) → List KV
  | some xs => [(key, none, joinSemi xs)]
  | none => []

/-- Lines of an optional localized string field: default, then variants. -/
def localizedBlock (key : Str) : Option LocalizedString → List KV
  | some ls => (key, none, ls.default) :: locLines key ls.localized
  | none => []

/-- Lines of the optional icon field. -/
def iconBlock (key : Str) : Option IconString → List KV
  | some ic => (key, none, ic.default) :: locLines key ic.localized
  | none => []

/-- Lines of the optional `Keywords` field. -/
def keywordsBlock : Option LocalizedStringList → List KV
  | some kl =>
    (S "Keywords", none, joinSemi kl.default)
      :: kl.localized.map (fun p => (S "Keywords", some p.1, joinSemi p.2))
  | none => []

/-- Lines of one raw entry bucket (nested loops of lines 982-996/1002-1016). -/
def entryKVs (key : Str) (es : List Entry) : List KV :=
  es.map (fun e => (key, e.locale, e.value))

/-- The key-value data of the main group in the exact emission order of
`write_to` (lines 840-996). -/
def emittedKVs (d : DesktopEntry) : List KV :=
  (S "Type", none, d.entry_type.asStr)
    :: (optLine (S "Version") d.version
      ++ ((S "Name", none, d.name.default) :: locLines (S "Name") d.name.localized)
      ++ localizedBlock (S "GenericName") d.generic_name
      ++ optBoolLine (S "NoDisplay") d.no_display
      ++ localizedBlock (S "Comment") d.comment
      ++ iconBlock (S "Icon") d.icon
      ++ optBoolLine (S "Hidden") d.hidden
      ++ optListLine (S "OnlyShowIn") d.only_show_in
      ++ optListLine (S "NotShowIn") d.not_show_in
      ++ optBoolLine (S "DBusActivatable") d.dbus_activatable
      ++ optLine (S "TryExec") d.try_exec
      ++ optLine (S "Exec") d.exec
      ++ optLine (S "Path") d.path
      ++ optBoolLine (S "Terminal") d.terminal
      ++ optListLine (S "Actions") d.actions
      ++ optListLine (S "MimeType") d.mime_type
      ++ optListLine (S "Categories") d.categories
      ++ optListLine (S "Implements") d.implements
      ++ keywordsBlock d.keywords
      ++ optBoolLine (S "StartupNotify") d.startup_notify
      ++ optLine (S "StartupWMClass") d.startup_wm_class
      ++ optLine (S "URL") d.url
      ++ optBoolLine (S "PrefersNonDefaultGPU") d.prefers_non_default_gpu
      ++ optBoolLine (S "SingleMainWindow") d.single_main_window
      ++ (d.unknown_keys.flatMap (fun kv => entryKVs kv.1 kv.2)))

/-- A leading comment or blank line as emitted by lines 829-835. -/
def commentLine (c : Comment) : Str := if c.is_blank then [] else '#' :: c.content

/-- A group header line `[name]`. -/
def headerLine (n : Str) : Str := '[' :: (n ++ [']'])

/-- The lines of one additional group (lines 999-1017): a blank separator,
the header, then every entry. -/
def groupBlock (g : Group) : List Str :=
  [] :: headerLine g.name
    :: ((g.entries.flatMap (fun kv => entryKVs kv.1 kv.2)).map mkLine)

/-- All lines of `DesktopEntry::write_to` (lines 827-1020), in order. -/
def serializeLines (d : DesktopEntry) : List Str :=
  d.comments.map commentLine
    ++ headerLine dE :: (emittedKVs d).map mkLine
    ++ (d.additional_groups.flatMap (fun p => groupBlock p.2))

/-- Concatenate lines, each terminated by `\n` (every `writeln!`). -/
def joinLines : List Str → Str
  | [] => []
  | l :: ls => l ++ '\n' :: joinLines ls

/-- `DesktopEntry::serialize` (lines 820-824). -/
def serialize (d : DesktopEntry) : Str := joinLines (serializeLines d)

end DesktopEntrySpec

namespace DesktopEntrySpec

deriving instance DecidableEq for Except

-- ============================================================================
-- Specification-side definitions (used to state claims, never by the model)
-- ============================================================================

/-- Modelled from the spec: the candidate lookup keys of the locale
resolution cascade (spec 4.3), in order — the exact query, then (when the
query has both country and modifier) the query with country dropped, then
(when it has a modifier) the query with modifier dropped, then (when it has
a country or a modifier) the bare language. -/
def resolveCandidates (q : Locale) : List Locale :=
  [q]
    ++ (if q.country.isSome && q.modifier.isSome then [{ q with country := none }] else [])
    ++ (if q.modifier.isSome then [{ q with modifier := none }] else [])
    ++ (if q.country.isSome || q.modifier.isSome then [⟨q.lang, none, none, none⟩] else [])

/-- First successful lookup among a list of candidate keys. -/
def firstHit {β : Type} (m : List (Locale × β)) : List Locale → Option β
  | [] => none
  | l :: ls =>
    match alookup l m with
    | some v => some v
    | none => firstHit m ls

/-- Modelled from the spec: `resolve(value, query)` — the first candidate
stored in the map wins, else the default (spec 4.3 steps 1-5). -/
def resolveSpec {β : Type} (dflt : β) (m : List (Locale × β)) (q : Locale) : β :=
  (firstHit m (resolveCandidates q)).getD dflt

theorem LocalizedString.ls_get_eq_resolveSpec (v : LocalizedString) (q : Locale) :
    v.get q = resolveSpec v.default v.localized q := by
  unfold LocalizedString.get resolveSpec resolveCandidates
  obtain ⟨lg, co, en, mo⟩ := q
  cases co with
  | none =>
    cases mo with
    | none =>
      simp only [Locale.new, Option.isSome_none, Bool.false_and, Bool.false_or,
        Bool.false_eq_true, if_false, List.append_nil, List.nil_append, firstHit]
      rcases alookup (⟨lg, none, en, none⟩ : Locale) v.localized with _ | v₁ <;> simp [firstHit]
    | some mv =>
      simp only [Locale.new, Option.isSome_none, Option.isSome_some, Bool.false_and,
        Bool.true_and, Bool.false_or, Bool.true_or, Bool.or_true, if_true, if_false,
        Bool.false_eq_true, List.append_nil, List.nil_append, List.cons_append,
        List.singleton_append, firstHit]
      rcases alookup (⟨lg, none, en, some mv⟩ : Locale) v.localized with _ | v₁ <;>
        simp [firstHit] <;> try rfl
      rcases alookup (⟨lg, none, en, none⟩ : Locale) v.localized with _ | v₃ <;>
        simp [firstHit] <;> try rfl
      rcases alookup (⟨lg, none, none, none⟩ : Locale) v.localized with _ | v₄ <;> simp [firstHit]
  | some cv =>
    cases mo with
    | none =>
      simp only [Locale.new, Option.isSome_none, Option.isSome_some, Bool.true_and,
        Bool.and_false, Bool.false_or, Bool.true_or, Bool.or_false, if_true, if_false,
        Bool.false_eq_true, List.append_nil, List.nil_append, List.cons_append,
        List.singleton_append, firstHit]
      rcases alookup (⟨lg, some cv, en, none⟩ : Locale) v.localized with _ | v₁ <;>
        simp [firstHit] <;> try rfl
      rcases alookup (⟨lg, none, none, none⟩ : Locale) v.localized with _ | v₄ <;> simp [firstHit]
    | some mv =>
      simp only [Locale.new, Option.isSome_some, Bool.true_and, Bool.true_or, if_true,
        List.append_nil, List.nil_append, List.cons_append, List.singleton_append,
        firstHit]
      rcases alookup (⟨lg, some cv, en, some mv⟩ : Locale) v.localized with _ | v₁ <;>
        simp [firstHit] <;> try rfl
      rcases alookup (⟨lg, none, en, some mv⟩ : Locale) v.localized with _ | v₂ <;>
        simp [firstHit] <;> try rfl
      rcases alookup (⟨lg, some cv, en, none⟩ : Locale) v.localized with _ | v₃ <;>
        simp [firstHit] <;> try rfl
      rcases alookup (⟨lg, none, none, none⟩ : Locale) v.localized with _ | v₄ <;> simp [firstHit]

theorem IconString.is_get_eq_resolveSpec (v : IconString) (q : Locale) :
    v.get q = resolveSpec v.default v.localized q := by
  unfold IconString.get resolveSpec resolveCandidates
  obtain ⟨lg, co, en, mo⟩ := q
  cases co with
  | none =>
    cases mo with
    | none =>
      simp only [Locale.new, Option.isSome_none, Bool.false_and, Bool.false_or,
        Bool.false_eq_true, if_false, List.append_nil, List.nil_append, firstHit]
      rcases alookup (⟨lg, none, en, none⟩ : Locale) v.localized with _ | v₁ <;> simp [firstHit]
    | some mv =>
      simp only [Locale.new, Option.isSome_none, Option.isSome_some, Bool.false_and,
        Bool.true_and, Bool.false_or, Bool.true_or, Bool.or_true, if_true, if_false,
        Bool.false_eq_true, List.append_nil, List.nil_append, List.cons_append,
        List.singleton_append, firstHit]
      rcases alookup (⟨lg, none, en, some mv⟩ : Locale) v.localized with _ | v₁ <;>
        simp [firstHit] <;> try rfl
      rcases alookup (⟨lg, none, en, none⟩ : Locale) v.localized with _ | v₃ <;>
        simp [firstHit] <;> try rfl
      rcases alookup (⟨lg, none, none, none⟩ : Locale) v.localized with _ | v₄ <;> simp [firstHit]
  | some cv =>
    cases mo with
    | none =>
      simp only [Locale.new, Option.isSome_none, Option.isSome_some, Bool.true_and,
        Bool.and_false, Bool.false_or, Bool.true_or, Bool.or_false, if_true, if_false,
        Bool.false_eq_true, List.append_nil, List.nil_append, List.cons_append,
        List.singleton_append, firstHit]
      rcases alookup (⟨lg, some cv, en, none⟩ : Locale) v.localized with _ | v₁ <;>
        simp [firstHit] <;> try rfl
      rcases alookup (⟨lg, none, none, none⟩ : Locale) v.localized with _ | v₄ <;> simp [firstHit]
    | some mv =>
      simp only [Locale.new, Option.isSome_some, Bool.true_and, Bool.true_or, if_true,
        List.append_nil, List.nil_append, List.cons_append, List.singleton_append,
        firstHit]
      rcases alookup (⟨lg, some cv, en, some mv⟩ : Locale) v.localized with _ | v₁ <;>
        simp [firstHit] <;> try rfl
      rcases alookup (⟨lg, none, en, some mv⟩ : Locale) v.localized with _ | v₂ <;>
        simp [firstHit] <;> try rfl
      rcases alookup (⟨lg, some cv, en, none⟩ : Locale) v.localized with _ | v₃ <;>
        simp [firstHit] <;> try rfl
      rcases alookup (⟨lg, none, none, none⟩ : Locale) v.localized with _ | v₄ <;> simp [firstHit]

theorem LocalizedStringList.lsl_get_eq_resolveSpec (v : LocalizedStringList) (q : Locale) :
    v.get q = resolveSpec v.default v.localized q := by
  unfold LocalizedStringList.get resolveSpec resolveCandidates
  obtain ⟨lg, co, en, mo⟩ := q
  cases co with
  | none =>
    cases mo with
    | none =>
      simp only [Locale.new, Option.isSome_none, Bool.false_and, Bool.false_or,
        Bool.false_eq_true, if_false, List.append_nil, List.nil_append, firstHit]
      rcases alookup (⟨lg, none, en, none⟩ : Locale) v.localized with _ | v₁ <;> simp [firstHit]
    | some mv =>
      simp only [Locale.new, Option.isSome_none, Option.isSome_some, Bool.false_and,
        Bool.true_and, Bool.false_or, Bool.true_or, Bool.or_true, if_true, if_false,
        Bool.false_eq_true, List.append_nil, List.nil_append, List.cons_append,
        List.singleton_append, firstHit]
      rcases alookup (⟨lg, none, en, some mv⟩ : Locale) v.localized with _ | v₁ <;>
        simp [firstHit] <;> try rfl
      rcases alookup (⟨lg, none, en, none⟩ : Locale) v.localized with _ | v₃ <;>
        simp [firstHit] <;> try rfl
      rcases alookup (⟨lg, none, none, none⟩ : Locale) v.localized with _ | v₄ <;> simp [firstHit]
  | some cv =>
    cases mo with
    | none =>
      simp only [Locale.new, Option.isSome_none, Option.isSome_some, Bool.true_and,
        Bool.and_false, Bool.false_or, Bool.true_or, Bool.or_false, if_true, if_false,
        Bool.false_eq_true, List.append_nil, List.nil_append, List.cons_append,
        List.singleton_append, firstHit]
      rcases alookup (⟨lg, some cv, en, none⟩ : Locale) v.localized with _ | v₁ <;>
        simp [firstHit] <;> try rfl
      rcases alookup (⟨lg, none, none, none⟩ : Locale) v.localized with _ | v₄ <;> simp [firstHit]
    | some mv =>
      simp only [Locale.new, Option.isSome_some, Bool.true_and, Bool.true_or, if_true,
        List.append_nil, List.nil_append, List.cons_append, List.singleton_append,
        firstHit]
      rcases alookup (⟨lg, some cv, en, some mv⟩ : Locale) v.localized with _ | v₁ <;>
        simp [firstHit] <;> try rfl
      rcases alookup (⟨lg, none, en, some mv⟩ : Locale) v.localized with _ | v₂ <;>
        simp [firstHit] <;> try rfl
      rcases alookup (⟨lg, some cv, en, none⟩ : Locale) v.localized with _ | v₃ <;>
        simp [firstHit] <;> try rfl
      rcases alookup (⟨lg, none, none, none⟩ : Locale) v.localized with _ | v₄ <;> simp [firstHit]

/-- The example localized value of the claim: default `Default`, localized
`{en: English, en_US: American English, fr: Français}`. -/
def exampleLS : LocalizedString :=
  ⟨S "Default",
   [(Locale.new (S "en"), S "English"),
    (⟨S "en", some (S "US"), none, none⟩, S "American English"),
    (Locale.new (S "fr"), S "Français")]⟩

/-- C1: locale resolution follows the exact five-step cascade — for every
localized value and query, `get` equals the spec's cascade (exact match;
country dropped when the query has country and modifier; modifier dropped
when it has a modifier; bare language when it has either; else the
default), for all three localized value types; and on the claim's example
`en_US ↦ American English`, `en_GB ↦ English`, `de ↦ Default`. -/
theorem c1_locale_resolution_cascade :
    (∀ (v : LocalizedString) (q : Locale), v.get q = resolveSpec v.default v.localized q)
    ∧ (∀ (v : IconString) (q : Locale), v.get q = resolveSpec v.default v.localized q)
    ∧ (∀ (v : LocalizedStringList) (q : Locale), v.get q = resolveSpec v.default v.localized q)
    ∧ exampleLS.get ⟨S "en", some (S "US"), none, none⟩ = S "American English"
    ∧ exampleLS.get ⟨S "en", some (S "GB"), none, none⟩ = S "English"
    ∧ exampleLS.get (Locale.new (S "de")) = S "Default" :=
  ⟨fun v q => v.ls_get_eq_resolveSpec q,
   fun v q => v.is_get_eq_resolveSpec q,
   fun v q => v.lsl_get_eq_resolveSpec q,
   by decide, by decide, by decide⟩

-- ============================================================================
-- C7: the semantic validator
-- ============================================================================

/-- Message of validation rule 1. -/
def urlMsg : Str := S "URL is required for Link type entries"

/-- Message of validation rule 2. -/
def appMsg : Str := S "Either Exec key or DBusActivatable=true is required for Application type"

/-- C7: `validate` errors exactly by its two rules, first rule first —
rule 1 fires iff the type is Link with no URL, rule 2 fires iff the type is
Application with no Exec and `dbus_activatable` not true, success is
exactly the absence of both, and Directory entries always validate.
(`validate` is a pure function of the document here, so it cannot mutate
it.) -/
theorem c7_validate_rules :
    ∀ d : DesktopEntry,
      (d.validate = .error (.ValidationError urlMsg)
        ↔ d.entry_type = .Link ∧ d.url = none)
      ∧ (d.validate = .error (.ValidationError appMsg)
        ↔ d.entry_type = .Application ∧ d.exec = none ∧ d.dbus_activatable.getD false = false)
      ∧ (d.validate = .ok ()
        ↔ ¬(d.entry_type = .Link ∧ d.url = none)
          ∧ ¬(d.entry_type = .Application ∧ d.exec = none ∧
              d.dbus_activatable.getD false = false))
      ∧ (d.entry_type = .Directory → d.validate = .ok ()) := by
  intro d
  have hmsg : urlMsg ≠ appMsg := by decide
  unfold DesktopEntry.validate
  split_ifs with h1 h2
  · refine ⟨⟨fun _ => h1, fun _ => rfl⟩, ⟨fun h => ?_, fun hA => ?_⟩,
      ⟨fun h => by simp at h, fun hn => absurd h1 hn.1⟩, fun hD => ?_⟩
    · simp only [Except.error.injEq, DesktopEntryError.ValidationError.injEq] at h
      exact absurd h hmsg
    · exact absurd (h1.1.symm.trans hA.1) (by decide)
    · exact absurd (h1.1.symm.trans hD) (by decide)
  · refine ⟨⟨fun h => ?_, fun hL => absurd hL h1⟩, ⟨fun _ => h2, fun _ => rfl⟩,
      ⟨fun h => by simp at h, fun hn => absurd h2 hn.2⟩, fun hD => ?_⟩
    · simp only [Except.error.injEq, DesktopEntryError.ValidationError.injEq] at h
      exact absurd h.symm hmsg
    · exact absurd (h2.1.symm.trans hD) (by decide)
  · exact ⟨⟨fun h => by simp at h, fun hL => absurd hL h1⟩,
      ⟨fun h => by simp at h, fun hA => absurd hA h2⟩,
      ⟨fun _ => ⟨h1, h2⟩, fun _ => rfl⟩, fun _ => rfl⟩

/-- Witness for C7 at a concrete Directory entry. -/
theorem c7_validate_rules_witness :
    (DesktopEntry.new .Directory ⟨S "X", []⟩).validate = .ok () :=
  (c7_validate_rules (DesktopEntry.new .Directory ⟨S "X", []⟩)).2.2.2 rfl

end DesktopEntrySpec

namespace DesktopEntrySpec

-- ============================================================================
-- Helpers for stating claims about concrete parses
-- ============================================================================

/-- Successfully parsed document of a text, if any. -/
def parsedDoc (s : Str) : Option DesktopEntry :=
  match parse s with
  | some (.ok d) => some d
  | _ => none

/-- The raw entry table of the `Desktop Entry` group after the line loop. -/
def mainRaw (s : Str) : Option GroupData :=
  match runLines (rustLines s) 1 ⟨[], none, []⟩ with
  | some (.ok st) => alookup dE st.groups
  | _ => none

/-- First entry of a bucket that carries no locale tag. -/
def firstUntagged (es : List Entry) : Option Entry := es.find? (fun e => e.locale.isNone)

/-- The first line of a text that is classified as a group header
(trimmed, starts with `[`), returned trimmed. -/
def firstHeader (s : Str) : Option Str :=
  ((rustLines s).find? (fun l => (trim l).head? = some '[')).map trim

/-- The pattern `[A-Za-z0-9-]+` of the claim: nonempty, all characters in
the class. -/
def matchesKeyPat (k : Str) : Bool := !k.isEmpty && k.all isKeyChar

-- ============================================================================
-- Concrete counterexample inputs
-- ============================================================================

/-- A text whose `Name` value ends in a carriage return: the final physical
line is `Name=X<CR><CR><LF>`. -/
def cxC2 : Str := S "[Desktop Entry]\nType=Application\nName=X\r\r\n"

/-- A text with a locale-tagged `Version` entry before the untagged one. -/
def cxC3 : Str := S "[Desktop Entry]\nVersion[fr]=1.0\nVersion=2.0\nType=Application\nName=X"

/-- A text whose first group header is `[Foo]`, not `[Desktop Entry]`. -/
def cxC5a : Str := S "[Foo]\n[Desktop Entry]\nType=Application\nName=X"

/-- A text with no group at all (and hence no `[Desktop Entry]` group). -/
def cxC5b : Str := S "x"

/-- A text with a key-value line `=foo`, whose bare key is empty. -/
def cxC6 : Str := S "[Desktop Entry]\nType=Application\nName=X\n=foo"

/-- A text with a key-value line `a]b[c=v`: the first `]` of the key part
precedes the first `[`. -/
def cxC10 : Str := S "[Desktop Entry]\nType=Application\nName=X\na]b[c=v"

/-- C2 (counterexample): on `cxC2`, parsing succeeds with
`name.default = "X\r"`, but re-parsing the serialization yields
`name.default = "X"` — the round trip does not preserve `name.default`
exactly, because `str::lines` strips the `\r` the serializer re-emits
before its own `\n`. -/
theorem c2_round_trip_counterexample :
    (parsedDoc cxC2).map (fun d => d.name.default) = some (S "X\r")
    ∧ ((parsedDoc cxC2).bind (fun d => parsedDoc (serialize d))).map
        (fun d => d.name.default) = some (S "X")
    ∧ S "X\r" ≠ S "X" :=
  ⟨by decide, by decide, by decide⟩

/-- C3 (counterexample): on `cxC3`, the typed `version` field is `"1.0"`,
taken from the locale-tagged entry `Version[fr]=1.0`, although the first
entry for `Version` with no locale tag has value `"2.0"`. -/
theorem c3_first_entry_counterexample :
    (parsedDoc cxC3).map (fun d => d.version) = some (some (S "1.0"))
    ∧ ((mainRaw cxC3).bind (fun md => (alookup (S "Version") md).bind firstUntagged)).map
        (fun e => e.value) = some (S "2.0")
    ∧ (S "1.0" : Str) ≠ S "2.0" :=
  ⟨by decide, by decide, by decide⟩

/-- C5 (counterexample): `cxC5a` parses successfully although its first
group header is `[Foo]`, not `[Desktop Entry]`; and `cxC5b` has no
`[Desktop Entry]` group at all yet fails with `InvalidLine`, not
`MissingDesktopEntryGroup`. -/
theorem c5_first_group_counterexample :
    (parsedDoc cxC5a).isSome = true
    ∧ firstHeader cxC5a = some (S "[Foo]")
    ∧ S "[Foo]" ≠ S "[Desktop Entry]"
    ∧ parse cxC5b = some (.error (.InvalidLine 1 (S "x")))
    ∧ DesktopEntryError.InvalidLine 1 (S "x") ≠ .MissingDesktopEntryGroup :=
  ⟨by decide, by decide, by decide, by decide, by decide⟩

/-- C6 (counterexample): `cxC6` parses successfully and its document holds
the empty key (from the line `=foo`) among `unknown_keys`, although the
empty key does not match `[A-Za-z0-9-]+`. -/
theorem c6_key_name_counterexample :
    (parsedDoc cxC6).map (fun d => (alookup ([] : Str) d.unknown_keys).isSome) = some true
    ∧ matchesKeyPat [] = false :=
  ⟨by decide, by decide⟩

/-- C10: `parse` does not return normally on every input — on `cxC10`, the
key part `a]b[c` has its first `]` before its first `[`, the Rust code
takes the slice `key_part[4..1]`, and the parser panics (modelled by
`none`). -/
theorem c10_parse_panics_on_bracket_line : parse cxC10 = none := by decide

end DesktopEntrySpec

namespace DesktopEntrySpec

-- ============================================================================
-- Relating `parse` to its two phases
-- ============================================================================

theorem parse_ok_iff (s : Str) (d : DesktopEntry) :
    parse s = some (.ok d) ↔
      ∃ st, runLines (rustLines s) 1 ⟨[], none, []⟩ = some (.ok st)
        ∧ buildDoc st.groups st.comments = .ok d := by
  unfold parse
  cases h : runLines (rustLines s) 1 ⟨[], none, []⟩ with
  | none => simp
  | some r =>
    cases r with
    | error e => simp
    | ok st => simp

theorem buildDoc_ok_fields {groups : List (Str × GroupData)} {comments : List Comment}
    {d : DesktopEntry} {md : GroupData}
    (hmd : alookup dE groups = some md)
    (hb : buildDoc groups comments = .ok d) :
    (∃ tE ty, (alookup (S "Type") md).bind List.head? = some tE
      ∧ DesktopEntryType.fromStr tE.value = some ty ∧ d.entry_type = ty)
    ∧ (∃ nameEs, alookup (S "Name") md = some nameEs
        ∧ d.name = buildLocalizedString nameEs)
    ∧ d.version = parseOptionalString md (S "Version")
    ∧ d.generic_name = parseOptionalLocalizedString md (S "GenericName")
    ∧ d.no_display = parseOptionalBool md (S "NoDisplay")
    ∧ d.comment = parseOptionalLocalizedString md (S "Comment")
    ∧ d.icon = parseOptionalIconString md (S "Icon")
    ∧ d.hidden = parseOptionalBool md (S "Hidden")
    ∧ d.only_show_in = parseOptionalStringList md (S "OnlyShowIn")
    ∧ d.not_show_in = parseOptionalStringList md (S "NotShowIn")
    ∧ d.dbus_activatable = parseOptionalBool md (S "DBusActivatable")
    ∧ d.try_exec = parseOptionalString md (S "TryExec")
    ∧ d.exec = parseOptionalString md (S "Exec")
    ∧ d.path = parseOptionalString md (S "Path")
    ∧ d.terminal = parseOptionalBool md (S "Terminal")
    ∧ d.actions = parseOptionalStringList md (S "Actions")
    ∧ d.mime_type = parseOptionalStringList md (S "MimeType")
    ∧ d.categories = parseOptionalStringList md (S "Categories")
    ∧ d.implements = parseOptionalStringList md (S "Implements")
    ∧ d.keywords = parseOptionalLocalizedStringList md (S "Keywords")
    ∧ d.startup_notify = parseOptionalBool md (S "StartupNotify")
    ∧ d.startup_wm_class = parseOptionalString md (S "StartupWMClass")
    ∧ d.url = parseOptionalString md (S "URL")
    ∧ d.prefers_non_default_gpu = parseOptionalBool md (S "PrefersNonDefaultGPU")
    ∧ d.single_main_window = parseOptionalBool md (S "SingleMainWindow")
    ∧ d.unknown_keys = md.filter (fun kv => ¬ knownKeys.contains kv.1)
    ∧ d.additional_groups = (eraseKey dE groups).map (fun g => (g.1, ⟨g.1, g.2⟩))
    ∧ d.comments = comments := by
  unfold buildDoc at hb
  rw [hmd] at hb
  cases hT : (alookup (S "Type") md).bind List.head? with
  | none =>
    simp only [hT] at hb
    exact Except.noConfusion hb
  | some tE =>
    simp only [hT] at hb
    cases hy : DesktopEntryType.fromStr tE.value with
    | none =>
      simp only [hy] at hb
      exact Except.noConfusion hb
    | some ty =>
      simp only [hy] at hb
      cases hN : alookup (S "Name") md with
      | none =>
        simp only [hN] at hb
        exact Except.noConfusion hb
      | some nameEs =>
        simp only [hN, Except.ok.injEq] at hb
        subst hb
        exact ⟨⟨tE, ty, rfl, hy, rfl⟩, ⟨nameEs, rfl, rfl⟩, rfl, rfl, rfl, rfl, rfl,
          rfl, rfl, rfl, rfl, rfl, rfl, rfl, rfl, rfl, rfl, rfl, rfl, rfl, rfl,
          rfl, rfl, rfl, rfl, rfl, rfl, rfl⟩

theorem mainRaw_eq {s : Str} {st : PState}
    (h : runLines (rustLines s) 1 ⟨[], none, []⟩ = some (.ok st)) :
    mainRaw s = alookup dE st.groups := by
  unfold mainRaw
  rw [h]

theorem parseOptionalString_eq (md : GroupData) (k : Str) :
    parseOptionalString md k = ((alookup k md).bind List.head?).map Entry.value := by
  unfold parseOptionalString
  cases (alookup k md).bind List.head? <;> rfl

theorem parseOptionalBool_eq (md : GroupData) (k : Str) :
    parseOptionalBool md k = ((alookup k md).bind List.head?).bind
      (fun e => if e.value = S "true" then some true
        else if e.value = S "false" then some false else none) := by
  unfold parseOptionalBool
  cases (alookup k md).bind List.head? <;> rfl

theorem parseOptionalStringList_eq (md : GroupData) (k : Str) :
    parseOptionalStringList md k = ((alookup k md).bind List.head?).bind
      (fun e => if (splitChar ';' e.value).filter (fun x => x ≠ []) = []
        then none else some ((splitChar ';' e.value).filter (fun x => x ≠ []))) := by
  unfold parseOptionalStringList splitSemi
  cases (alookup k md).bind List.head? <;> rfl

end DesktopEntrySpec

namespace DesktopEntrySpec

/-- The literal-to-boolean mapping of `parse_optional_bool`, as the claims
state it: `true` and `false` set the field, anything else leaves it unset. -/
def boolOfLiteral (v : Str) : Option Bool :=
  if v = S "true" then some true else if v = S "false" then some false else none

/-- The list-splitting of `parse_optional_string_list`, as the claims state
it: split on `;`, drop empty segments, and leave the field unset when the
result is empty. -/
def listOfLiteral (v : Str) : Option (List Str) :=
  if (splitChar ';' v).filter (fun x => x ≠ []) = [] then none
  else some ((splitChar ';' v).filter (fun x => x ≠ []))

theorem parseOptionalBool_eq_lit (md : GroupData) (k : Str) :
    parseOptionalBool md k =
      ((alookup k md).bind List.head?).bind (fun e => boolOfLiteral e.value) := by
  rw [parseOptionalBool_eq]
  rfl

theorem parseOptionalStringList_eq_lit (md : GroupData) (k : Str) :
    parseOptionalStringList md k =
      ((alookup k md).bind List.head?).bind (fun e => listOfLiteral e.value) := by
  rw [parseOptionalStringList_eq]
  rfl

/-- C3 (amended): every scalar string or boolean field of the main group is
derived from the value of the first entry for its key in file order —
whether or not that entry carries a locale tag — and later duplicate
entries for the same key do not affect the typed field. -/
theorem c3_scalar_first_entry :
    ∀ (s : Str) (d : DesktopEntry) (md : GroupData),
      parse s = some (.ok d) → mainRaw s = some md →
      d.version = ((alookup (S "Version") md).bind List.head?).map Entry.value
      ∧ d.try_exec = ((alookup (S "TryExec") md).bind List.head?).map Entry.value
      ∧ d.exec = ((alookup (S "Exec") md).bind List.head?).map Entry.value
      ∧ d.path = ((alookup (S "Path") md).bind List.head?).map Entry.value
      ∧ d.startup_wm_class =
          ((alookup (S "StartupWMClass") md).bind List.head?).map Entry.value
      ∧ d.url = ((alookup (S "URL") md).bind List.head?).map Entry.value
      ∧ d.no_display =
          ((alookup (S "NoDisplay") md).bind List.head?).bind (fun e => boolOfLiteral e.value)
      ∧ d.hidden =
          ((alookup (S "Hidden") md).bind List.head?).bind (fun e => boolOfLiteral e.value)
      ∧ d.dbus_activatable =
          ((alookup (S "DBusActivatable") md).bind List.head?).bind
            (fun e => boolOfLiteral e.value)
      ∧ d.terminal =
          ((alookup (S "Terminal") md).bind List.head?).bind (fun e => boolOfLiteral e.value)
      ∧ d.startup_notify =
          ((alookup (S "StartupNotify") md).bind List.head?).bind
            (fun e => boolOfLiteral e.value)
      ∧ d.prefers_non_default_gpu =
          ((alookup (S "PrefersNonDefaultGPU") md).bind List.head?).bind
            (fun e => boolOfLiteral e.value)
      ∧ d.single_main_window =
          ((alookup (S "SingleMainWindow") md).bind List.head?).bind
            (fun e => boolOfLiteral e.value) := by
  intro s d md hp hm
  obtain ⟨st, hrun, hb⟩ := (parse_ok_iff s d).mp hp
  rw [mainRaw_eq hrun] at hm
  obtain ⟨-, -, hver, -, hnd, -, -, hhid, -, -, hdbus, htry, hexec, hpath, hterm,
    -, -, -, -, -, hsn, hwm, hurl, hgpu, hsmw, -, -, -⟩ := buildDoc_ok_fields hm hb
  exact ⟨by rw [hver, parseOptionalString_eq], by rw [htry, parseOptionalString_eq],
    by rw [hexec, parseOptionalString_eq], by rw [hpath, parseOptionalString_eq],
    by rw [hwm, parseOptionalString_eq], by rw [hurl, parseOptionalString_eq],
    by rw [hnd, parseOptionalBool_eq_lit], by rw [hhid, parseOptionalBool_eq_lit],
    by rw [hdbus, parseOptionalBool_eq_lit], by rw [hterm, parseOptionalBool_eq_lit],
    by rw [hsn, parseOptionalBool_eq_lit], by rw [hgpu, parseOptionalBool_eq_lit],
    by rw [hsmw, parseOptionalBool_eq_lit]⟩

/-- A concrete well-formed input used by the witnesses. -/
def wKV : Str :=
  S "[Desktop Entry]\nType=Application\nName=X\nExec=run\nHidden=true\nCategories=A;B;"

/-- A fallback document value for total projection helpers. -/
def fallbackDoc : DesktopEntry := DesktopEntry.new .Application ⟨[], []⟩

/-- The parsed document of a text, or the fallback. -/
def docOf (s : Str) : DesktopEntry :=
  match parse s with
  | some (.ok d) => d
  | _ => fallbackDoc

/-- The raw main-group table of a text, or empty. -/
def mdOf (s : Str) : GroupData := (mainRaw s).getD []

/-- Witness for C3 at the concrete input `wKV`. -/
theorem c3_scalar_first_entry_witness :
    (docOf wKV).exec = ((alookup (S "Exec") (mdOf wKV)).bind List.head?).map Entry.value :=
  (c3_scalar_first_entry wKV (docOf wKV) (mdOf wKV) (by decide) (by decide)).2.2.1

/-- C8: permissive booleans — for every boolean-typed field of the main
group in a successfully parsed document, the chosen entry's literal `true`
sets the field to true, `false` sets it to false, and any other literal
leaves the field unset; a bad boolean literal never causes an error
(concretely, `Hidden=maybe` still parses successfully, with `hidden`
unset). -/
theorem c8_permissive_booleans :
    (∀ (s : Str) (d : DesktopEntry) (md : GroupData),
      parse s = some (.ok d) → mainRaw s = some md →
      d.no_display = ((alookup (S "NoDisplay") md).bind List.head?).bind
          (fun e => if e.value = S "true" then some true
            else if e.value = S "false" then some false else none)
      ∧ d.hidden = ((alookup (S "Hidden") md).bind List.head?).bind
          (fun e => if e.value = S "true" then some true
            else if e.value = S "false" then some false else none)
      ∧ d.dbus_activatable = ((alookup (S "DBusActivatable") md).bind List.head?).bind
          (fun e => if e.value = S "true" then some true
            else if e.value = S "false" then some false else none)
      ∧ d.terminal = ((alookup (S "Terminal") md).bind List.head?).bind
          (fun e => if e.value = S "true" then some true
            else if e.value = S "false" then some false else none)
      ∧ d.startup_notify = ((alookup (S "StartupNotify") md).bind List.head?).bind
          (fun e => if e.value = S "true" then some true
            else if e.value = S "false" then some false else none)
      ∧ d.prefers_non_default_gpu =
          ((alookup (S "PrefersNonDefaultGPU") md).bind List.head?).bind
          (fun e => if e.value = S "true" then some true
            else if e.value = S "false" then some false else none)
      ∧ d.single_main_window = ((alookup (S "SingleMainWindow") md).bind List.head?).bind
          (fun e => if e.value = S "true" then some true
            else if e.value = S "false" then some false else none))
    ∧ (parsedDoc (S "[Desktop Entry]\nType=Application\nName=X\nHidden=maybe")).map
        (fun d => d.hidden) = some none := by
  refine ⟨?_, by decide⟩
  intro s d md hp hm
  obtain ⟨st, hrun, hb⟩ := (parse_ok_iff s d).mp hp
  rw [mainRaw_eq hrun] at hm
  obtain ⟨-, -, -, -, hnd, -, -, hhid, -, -, hdbus, -, -, -, hterm,
    -, -, -, -, -, hsn, -, -, hgpu, hsmw, -, -, -⟩ := buildDoc_ok_fields hm hb
  exact ⟨by rw [hnd, parseOptionalBool_eq], by rw [hhid, parseOptionalBool_eq],
    by rw [hdbus, parseOptionalBool_eq], by rw [hterm, parseOptionalBool_eq],
    by rw [hsn, parseOptionalBool_eq], by rw [hgpu, parseOptionalBool_eq],
    by rw [hsmw, parseOptionalBool_eq]⟩

/-- Witness for C8 at the concrete input `wKV` (`Hidden=true`). -/
theorem c8_permissive_booleans_witness :
    (docOf wKV).hidden = ((alookup (S "Hidden") (mdOf wKV)).bind List.head?).bind
      (fun e => if e.value = S "true" then some true
        else if e.value = S "false" then some false else none) :=
  (c8_permissive_booleans.1 wKV (docOf wKV) (mdOf wKV) (by decide) (by decide)).2.1

/-- C9: list-field splitting — for every list-typed field of the main group
in a successfully parsed document, the chosen entry's value is split on
`;` with empty segments dropped, and an empty result leaves the field
unset; concretely `Categories=Utility;TextEditor;` yields
`["Utility", "TextEditor"]` and `Categories=;;` leaves `categories` unset. -/
theorem c9_list_field_splitting :
    (∀ (s : Str) (d : DesktopEntry) (md : GroupData),
      parse s = some (.ok d) → mainRaw s = some md →
      d.only_show_in = ((alookup (S "OnlyShowIn") md).bind List.head?).bind
          (fun e => listOfLiteral e.value)
      ∧ d.not_show_in = ((alookup (S "NotShowIn") md).bind List.head?).bind
          (fun e => listOfLiteral e.value)
      ∧ d.actions = ((alookup (S "Actions") md).bind List.head?).bind
          (fun e => listOfLiteral e.value)
      ∧ d.mime_type = ((alookup (S "MimeType") md).bind List.head?).bind
          (fun e => listOfLiteral e.value)
      ∧ d.categories = ((alookup (S "Categories") md).bind List.head?).bind
          (fun e => listOfLiteral e.value)
      ∧ d.implements = ((alookup (S "Implements") md).bind List.head?).bind
          (fun e => listOfLiteral e.value))
    ∧ (parsedDoc
        (S "[Desktop Entry]\nType=Application\nName=X\nCategories=Utility;TextEditor;")).map
        (fun d => d.categories) = some (some [S "Utility", S "TextEditor"])
    ∧ (parsedDoc (S "[Desktop Entry]\nType=Application\nName=X\nCategories=;;")).map
        (fun d => d.categories) = some none := by
  refine ⟨?_, by decide, by decide⟩
  intro s d md hp hm
  obtain ⟨st, hrun, hb⟩ := (parse_ok_iff s d).mp hp
  rw [mainRaw_eq hrun] at hm
  obtain ⟨-, -, -, -, -, -, -, -, hosi, hnsi, -, -, -, -, -,
    hact, hmime, hcat, himpl, -, -, -, -, -, -, -, -, -⟩ := buildDoc_ok_fields hm hb
  exact ⟨by rw [hosi, parseOptionalStringList_eq_lit],
    by rw [hnsi, parseOptionalStringList_eq_lit],
    by rw [hact, parseOptionalStringList_eq_lit],
    by rw [hmime, parseOptionalStringList_eq_lit],
    by rw [hcat, parseOptionalStringList_eq_lit],
    by rw [himpl, parseOptionalStringList_eq_lit]⟩

/-- Witness for C9 at the concrete input `wKV` (`Categories=A;B;`). -/
theorem c9_list_field_splitting_witness :
    (docOf wKV).categories = ((alookup (S "Categories") (mdOf wKV)).bind List.head?).bind
      (fun e => listOfLiteral e.value) :=
  (c9_list_field_splitting.1 wKV (docOf wKV) (mdOf wKV) (by decide) (by decide)).2.2.2.2.1

end DesktopEntrySpec

namespace DesktopEntrySpec

-- ============================================================================
-- Helper lemmas: trimming
-- ============================================================================

theorem mem_trimLeft {c : Char} {s : Str} (h : c ∈ trimLeft s) : c ∈ s :=
  List.Sublist.subset (show List.Sublist (List.dropWhile isWs s) s from List.dropWhile_sublist _) h

theorem mem_trimRight {c : Char} {s : Str} (h : c ∈ trimRight s) : c ∈ s := by
  induction s with
  | nil => simpa [trimRight] using h
  | cons a rest ih =>
    unfold trimRight at h
    rcases hr : trimRight rest with _ | ⟨b, r⟩
    · rw [hr] at h
      by_cases hws : isWs a
      · simp [hws] at h
      · simp [hws] at h
        simp [h]
    · rw [hr] at h
      rcases List.mem_cons.mp h with rfl | h
      · simp
      · exact List.mem_cons_of_mem _ (ih (by rw [hr]; exact h))

theorem mem_trim {c : Char} {s : Str} (h : c ∈ trim s) : c ∈ s :=
  mem_trimLeft (mem_trimRight h)

theorem trimLeft_cons_of_nonws {c : Char} {rest : Str} (h : isWs c = false) :
    trimLeft (c :: rest) = c :: rest := by
  simp [trimLeft, h]

theorem trimLeft_head_nonws {c : Char} {s : Str} (h : (trimLeft s).head? = some c) :
    isWs c = false := by
  induction s with
  | nil => simp [trimLeft] at h
  | cons a rest ih =>
    by_cases hws : isWs a
    · exact ih (by simpa [trimLeft, hws] using h)
    · rw [trimLeft_cons_of_nonws (by simpa using hws)] at h
      simp at h
      rw [← h]
      simpa using hws

theorem trimRight_head {c : Char} {rest : Str} (h : isWs c = false) :
    trimRight (c :: rest) ≠ [] ∧ (trimRight (c :: rest)).head? = some c := by
  unfold trimRight
  rcases hr : trimRight rest with _ | ⟨b, r⟩ <;> simp [h]

theorem trim_cons_head {c : Char} {rest : Str} (h : isWs c = false) :
    trim (c :: rest) ≠ [] ∧ (trim (c :: rest)).head? = some c := by
  unfold trim
  rw [trimLeft_cons_of_nonws h]
  exact trimRight_head h

theorem trimRight_concat_of_nonws {b : Char} {xs : Str} (h : isWs b = false) :
    trimRight (xs ++ [b]) = xs ++ [b] := by
  induction xs with
  | nil => simp [trimRight, h]
  | cons a rest ih =>
    rw [List.cons_append]
    unfold trimRight
    rw [ih]
    rcases hr : rest ++ [b] with _ | ⟨x, r⟩
    · exact absurd hr (by simp)
    · rfl

theorem trim_concat_of_nonws {a b : Char} {xs : Str} (ha : isWs a = false)
    (hb : isWs b = false) : trim (a :: (xs ++ [b])) = a :: (xs ++ [b]) := by
  unfold trim
  rw [trimLeft_cons_of_nonws ha]
  rw [show a :: (xs ++ [b]) = (a :: xs) ++ [b] by simp]
  exact trimRight_concat_of_nonws hb

theorem trimLeft_of_all_nonws {s : Str} (h : ∀ c ∈ s, isWs c = false) :
    trimLeft s = s := by
  cases s with
  | nil => rfl
  | cons a rest => exact trimLeft_cons_of_nonws (h a (by simp))

theorem trimRight_of_all_nonws {s : Str} (h : ∀ c ∈ s, isWs c = false) :
    trimRight s = s := by
  induction s with
  | nil => rfl
  | cons a rest ih =>
    unfold trimRight
    rw [ih (fun c hc => h c (List.mem_cons_of_mem _ hc))]
    cases rest with
    | nil => simp [h a (by simp)]
    | cons b r => rfl

theorem trim_of_all_nonws {s : Str} (h : ∀ c ∈ s, isWs c = false) : trim s = s := by
  unfold trim
  rw [trimLeft_of_all_nonws h, trimRight_of_all_nonws h]

theorem trimRight_eq_nil_ws {s : Str} (h : trimRight s = []) : ∀ c ∈ s, isWs c = true := by
  induction s with
  | nil => simp
  | cons a rest ih =>
    unfold trimRight at h
    rcases hr : trimRight rest with _ | ⟨b, r⟩
    · rw [hr] at h
      by_cases hws : isWs a
      · intro c hc
        rcases List.mem_cons.mp hc with rfl | hc
        · exact hws
        · exact ih hr c hc
      · simp [hws] at h
    · rw [hr] at h
      cases h

theorem mem_trimLeft_of_nonws {c : Char} {s : Str} (hc : c ∈ s) (hw : isWs c = false) :
    c ∈ trimLeft s := by
  induction s with
  | nil => cases hc
  | cons a rest ih =>
    rcases List.mem_cons.mp hc with rfl | hc'
    · rw [trimLeft_cons_of_nonws hw]
      simp
    · by_cases haw : isWs a
      · unfold trimLeft
        rw [List.dropWhile_cons_of_pos haw]
        exact ih hc'
      · rw [trimLeft_cons_of_nonws (by simpa using haw)]
        exact List.mem_cons_of_mem _ hc'

theorem mem_trimRight_of_nonws {c : Char} {s : Str} (hc : c ∈ s) (hw : isWs c = false) :
    c ∈ trimRight s := by
  induction s with
  | nil => cases hc
  | cons a rest ih =>
    unfold trimRight
    rcases List.mem_cons.mp hc with rfl | hc'
    · rcases hr : trimRight rest with _ | ⟨b, r⟩ <;> simp [hw]
    · have := ih hc'
      rcases hr : trimRight rest with _ | ⟨b, r⟩
      · rw [hr] at this
        cases this
      · rw [hr] at this
        exact List.mem_cons_of_mem _ this

theorem trim_eq_nil_ws {s : Str} (h : trim s = []) : ∀ c ∈ s, isWs c = true := by
  intro c hc
  by_contra hws
  have h1 : c ∈ trimLeft s := mem_trimLeft_of_nonws hc (by simpa using hws)
  have h2 : c ∈ trim s := mem_trimRight_of_nonws h1 (by simpa using hws)
  rw [h] at h2
  cases h2

theorem trimRight_idem (s : Str) : trimRight (trimRight s) = trimRight s := by
  induction s with
  | nil => rfl
  | cons a rest ih =>
    rcases hr : trimRight rest with _ | ⟨b, r⟩
    · by_cases hws : isWs a
      · rw [show trimRight (a :: rest) = [] from by unfold trimRight; rw [hr]; simp [hws]]
        rfl
      · rw [show trimRight (a :: rest) = [a] from by unfold trimRight; rw [hr]; simp [hws]]
        unfold trimRight
        simp [trimRight, hws]
    · rw [show trimRight (a :: rest) = a :: b :: r from by unfold trimRight; rw [hr]]
      have h2 : trimRight (b :: r) = b :: r := by rw [← hr, ih, hr]
      unfold trimRight
      rw [h2]

theorem trim_trim (s : Str) : trim (trim s) = trim s := by
  unfold trim
  rcases hl : trimLeft s with _ | ⟨x, r⟩
  · simp [trimRight, trimLeft]
  · have hx : isWs x = false := trimLeft_head_nonws (by rw [hl]; rfl)
    rcases hr : trimRight (x :: r) with _ | ⟨y, w⟩
    · simp [trimLeft, trimRight]
    · have hy : y = x := by
        have := (@trimRight_head x r hx).2
        rw [hr] at this
        simpa using this
      subst hy
      rw [trimLeft_cons_of_nonws hx, ← hr, trimRight_idem]

end DesktopEntrySpec

namespace DesktopEntrySpec

-- ============================================================================
-- Helper lemmas: splitting and searching
-- ============================================================================

theorem splitFirst_append {c : Char} {a b : Str} (h : c ∉ a) :
    splitFirst c (a ++ c :: b) = some (a, b) := by
  induction a with
  | nil => simp [splitFirst]
  | cons x xs ih =>
    have hx : x ≠ c := fun hxc => h (hxc ▸ List.mem_cons_self x xs)
    rw [List.cons_append]
    unfold splitFirst
    rw [if_neg hx, ih (fun hc => h (List.mem_cons_of_mem _ hc))]
    rfl

theorem splitFirst_spec {c : Char} {s kp v : Str} (h : splitFirst c s = some (kp, v)) :
    s = kp ++ c :: v ∧ c ∉ kp := by
  induction s generalizing kp v with
  | nil => cases h
  | cons x xs ih =>
    unfold splitFirst at h
    by_cases hx : x = c
    · rw [if_pos hx] at h
      simp at h
      obtain ⟨h1, h2⟩ := h
      subst h1
      subst h2
      subst hx
      exact ⟨rfl, by simp⟩
    · rw [if_neg hx] at h
      rcases hs : splitFirst c xs with _ | ⟨kp', v'⟩
      · rw [hs] at h
        cases h
      · rw [hs] at h
        simp at h
        obtain ⟨h1, h2⟩ := h
        obtain ⟨hxs, hnot⟩ := ih hs
        subst h2
        rw [← h1]
        constructor
        · rw [List.cons_append, ← hxs]
        · intro hmem
          rcases List.mem_cons.mp hmem with rfl | hmem'
          · exact hx rfl
          · exact hnot hmem'

theorem idxOf?_eq_none_iff {c : Char} {s : Str} : idxOf? c s = none ↔ c ∉ s := by
  induction s with
  | nil => simp [idxOf?]
  | cons x xs ih =>
    unfold idxOf?
    by_cases hx : x = c
    · simp [hx]
    · simp only [if_neg hx]
      rcases h : idxOf? c xs with _ | i <;>
        simp [List.mem_cons, Ne.symm hx, ← ih, h]

theorem idxOf?_append_first {c : Char} {a b : Str} (h : c ∉ a) :
    idxOf? c (a ++ c :: b) = some a.length := by
  induction a with
  | nil => simp [idxOf?]
  | cons x xs ih =>
    have hx : x ≠ c := fun hxc => h (hxc ▸ List.mem_cons_self x xs)
    rw [List.cons_append]
    unfold idxOf?
    rw [if_neg hx, ih (fun hc => h (List.mem_cons_of_mem _ hc))]
    simp

theorem splitChar_ne_nil {c : Char} {s : Str} : splitChar c s ≠ [] := by
  cases s with
  | nil => simp [splitChar]
  | cons x xs =>
    unfold splitChar
    by_cases hx : x = c
    · simp [hx]
    · rw [if_neg hx]
      rcases h : splitChar c xs with _ | ⟨y, ys⟩ <;> simp [splitCons]

theorem mem_splitChar {c : Char} {x s : Str} (hx : x ∈ splitChar c s) :
    (∀ a ∈ x, a ∈ s) ∧ c ∉ x := by
  induction s generalizing x with
  | nil =>
    simp [splitChar] at hx
    subst hx
    simp
  | cons y ys ih =>
    unfold splitChar at hx
    by_cases hy : y = c
    · rw [if_pos hy] at hx
      rcases List.mem_cons.mp hx with rfl | hx'
      · simp
      · obtain ⟨h1, h2⟩ := ih hx'
        exact ⟨fun a ha => List.mem_cons_of_mem _ (h1 a ha), h2⟩
    · rw [if_neg hy] at hx
      rcases hs : splitChar c ys with _ | ⟨h0, t⟩
      · exact absurd hs splitChar_ne_nil
      · rw [hs] at hx
        unfold splitCons at hx
        rcases List.mem_cons.mp hx with rfl | hx'
        · have h0mem : h0 ∈ splitChar c ys := by rw [hs]; simp
          obtain ⟨h1, h2⟩ := ih h0mem
          refine ⟨?_, ?_⟩
          · intro a ha
            rcases List.mem_cons.mp ha with rfl | ha'
            · simp
            · exact List.mem_cons_of_mem _ (h1 a ha')
          · intro hmem
            rcases List.mem_cons.mp hmem with rfl | hmem'
            · exact hy rfl
            · exact h2 hmem'
        · have : x ∈ splitChar c ys := by rw [hs]; exact List.mem_cons_of_mem _ hx'
          obtain ⟨h1, h2⟩ := ih this
          exact ⟨fun a ha => List.mem_cons_of_mem _ (h1 a ha), h2⟩

theorem splitChar_append_cons {c : Char} {a b : Str} (h : c ∉ a) :
    splitChar c (a ++ c :: b) = a :: splitChar c b := by
  induction a with
  | nil => simp [splitChar]
  | cons x xs ih =>
    have hx : x ≠ c := fun hxc => h (hxc ▸ List.mem_cons_self x xs)
    rw [List.cons_append]
    simp only [splitChar]
    rw [if_neg hx, ih (fun hc => h (List.mem_cons_of_mem _ hc))]
    rw [splitCons]

theorem stripCR_eq_self {l : Str} (h : '\r' ∉ l) : stripCR l = l := by
  unfold stripCR
  rcases hg : l.getLast? with _ | c
  · simp
  · have : c ∈ l := List.mem_of_mem_getLast? hg
    have hc : c ≠ '\r' := fun hcc => h (hcc ▸ this)
    simp [hc]

-- ============================================================================
-- Helper lemmas: association lists, pushEntry, updateGroup
-- ============================================================================

theorem alookup_eq_none_iff {β : Type} {k : Str} {m : List (Str × β)} :
    alookup k m = none ↔ k ∉ m.map Prod.fst := by
  induction m with
  | nil => simp [alookup]
  | cons p rest ih =>
    obtain ⟨k', v⟩ := p
    unfold alookup
    by_cases hk : k' = k
    · rw [if_pos hk]
      constructor
      · intro h
        cases h
      · intro h
        apply absurd _ h
        rw [← hk]
        simp only [List.map_cons]
        exact List.mem_cons_self _ _
    · rw [if_neg hk, ih]
      simp only [List.map_cons, List.mem_cons]
      constructor
      · intro h hmem
        rcases hmem with h1 | h2
        · exact hk h1.symm
        · exact h h2
      · intro h hmem
        exact h (Or.inr hmem)

theorem alookup_append_single {β : Type} (k : Str) (m : List (Str × β)) (n : Str) (x : β) :
    alookup k (m ++ [(n, x)]) =
      match alookup k m with
      | some v => some v
      | none => if n = k then some x else none := by
  induction m with
  | nil => simp [alookup]
  | cons p rest ih =>
    obtain ⟨k', v⟩ := p
    rw [List.cons_append]
    unfold alookup
    by_cases hk : k' = k
    · simp [hk]
    · rw [if_neg hk, if_neg hk, ih]

theorem alookup_pushEntry (gd : GroupData) (k k' : Str) (e : Entry) :
    alookup k (pushEntry gd k' e) =
      if k' = k then some ((alookup k gd).getD [] ++ [e]) else alookup k gd := by
  induction gd with
  | nil =>
    unfold pushEntry alookup
    by_cases hk : k' = k <;> simp [hk, alookup]
  | cons p rest ih =>
    obtain ⟨k₀, es⟩ := p
    unfold pushEntry
    by_cases h0 : k₀ = k'
    · rw [if_pos h0]
      unfold alookup
      by_cases hk : k₀ = k
      · rw [if_pos hk, if_pos (h0 ▸ hk), if_pos hk]
        simp
      · rw [if_neg hk, if_neg hk, if_neg (fun hh => hk (h0.trans hh))]
    · rw [if_neg h0]
      unfold alookup
      by_cases hk : k₀ = k
      · rw [if_pos hk, if_pos hk, if_neg (fun hh => h0 (hk.trans hh.symm))]
      · rw [if_neg hk, if_neg hk, ih]

theorem mem_pushEntry {gd : GroupData} {k : Str} {e : Entry} {q : Str × List Entry}
    (hq : q ∈ pushEntry gd k e) :
    q ∈ gd ∨ (∃ es₀, q = (k, es₀ ++ [e]) ∧ (alookup k gd = some es₀ ∨ (es₀ = [] ∧ alookup k gd = none))) := by
  induction gd with
  | nil =>
    unfold pushEntry at hq
    simp at hq
    exact Or.inr ⟨[], by simp [hq], Or.inr ⟨rfl, rfl⟩⟩
  | cons p rest ih =>
    obtain ⟨k₀, es⟩ := p
    unfold pushEntry at hq
    by_cases h0 : k₀ = k
    · rw [if_pos h0] at hq
      rcases List.mem_cons.mp hq with rfl | hq'
      · subst h0
        exact Or.inr ⟨es, rfl, Or.inl (by simp [alookup])⟩
      · exact Or.inl (List.mem_cons_of_mem _ hq')
    · rw [if_neg h0] at hq
      rcases List.mem_cons.mp hq with rfl | hq'
      · exact Or.inl (by simp)
      · rcases ih hq' with h | ⟨es₀, hqe, hl⟩
        · exact Or.inl (List.mem_cons_of_mem _ h)
        · refine Or.inr ⟨es₀, hqe, ?_⟩
          have hka : alookup k ((k₀, es) :: rest) = alookup k rest := by
            simp only [alookup]
            rw [if_neg h0]
          rw [hka]
          exact hl

theorem keys_updateGroup (gs : List (Str × GroupData)) (name : Str)
    (f : GroupData → GroupData) :
    (updateGroup gs name f).map Prod.fst = gs.map Prod.fst := by
  induction gs with
  | nil => rfl
  | cons p rest ih =>
    obtain ⟨n, gd⟩ := p
    unfold updateGroup
    by_cases hn : n = name
    · rw [if_pos hn]
      simp
    · rw [if_neg hn]
      simp [ih]

theorem alookup_updateGroup (gs : List (Str × GroupData)) (name : Str)
    (f : GroupData → GroupData) (k : Str) :
    alookup k (updateGroup gs name f) =
      if name = k then (alookup k gs).map f else alookup k gs := by
  induction gs with
  | nil =>
    simp only [updateGroup, alookup]
    by_cases hk : name = k <;> simp [hk]
  | cons p rest ih =>
    obtain ⟨n, gd⟩ := p
    simp only [updateGroup]
    by_cases hn : n = name
    · subst hn
      rw [if_pos rfl]
      simp only [alookup]
      by_cases hk : n = k <;> simp [hk, ih]
    · rw [if_neg hn]
      simp only [alookup]
      by_cases hk : n = k
      · rw [if_pos hk, if_pos hk]
        rw [if_neg (fun hh => hn (hk.trans hh.symm))]
      · rw [if_neg hk, if_neg hk, ih]

theorem mem_updateGroup {gs : List (Str × GroupData)} {name : Str}
    {f : GroupData → GroupData} {p : Str × GroupData} (hp : p ∈ updateGroup gs name f) :
    p ∈ gs ∨ ∃ gd₀, (name, gd₀) ∈ gs ∧ p = (name, f gd₀) := by
  induction gs with
  | nil => cases hp
  | cons q rest ih =>
    obtain ⟨n, gd⟩ := q
    unfold updateGroup at hp
    by_cases hn : n = name
    · rw [if_pos hn] at hp
      rcases List.mem_cons.mp hp with rfl | hp'
      · exact Or.inr ⟨gd, by simp [hn], by rw [hn]⟩
      · exact Or.inl (List.mem_cons_of_mem _ hp')
    · rw [if_neg hn] at hp
      rcases List.mem_cons.mp hp with rfl | hp'
      · exact Or.inl (by simp)
      · rcases ih hp' with h | ⟨gd₀, hm, he⟩
        · exact Or.inl (List.mem_cons_of_mem _ h)
        · exact Or.inr ⟨gd₀, List.mem_cons_of_mem _ hm, he⟩

theorem updateGroup_id (gs : List (Str × GroupData)) (g : Str) :
    updateGroup gs g (fun gd => gd) = gs := by
  induction gs with
  | nil => rfl
  | cons p rest ih =>
    obtain ⟨n, gd⟩ := p
    unfold updateGroup
    by_cases hn : n = g <;> simp [hn, ih]

theorem updateGroup_comp (gs : List (Str × GroupData)) (g : Str)
    (f f' : GroupData → GroupData) :
    updateGroup (updateGroup gs g f) g f' = updateGroup gs g (fun gd => f' (f gd)) := by
  induction gs with
  | nil => rfl
  | cons p rest ih =>
    obtain ⟨n, gd⟩ := p
    by_cases hn : n = g
    · subst hn
      simp [updateGroup]
    · simp [updateGroup, hn, ih]

-- ============================================================================
-- Helper lemmas: Locale.fromString components are drawn from its input
-- ============================================================================

/-- Substring-character containment. -/
def strSub (t s : Str) : Prop := ∀ c ∈ t, c ∈ s

/-- Optional-substring-character containment. -/
def optSub (o : Option Str) (s : Str) : Prop := ∀ x, o = some x → ∀ c ∈ x, c ∈ s

theorem strSub_refl (s : Str) : strSub s s := fun _ hc => hc

theorem strSub_take {s : Str} {n : Nat} : strSub (s.take n) s := fun _ hc =>
  List.take_subset n s hc

theorem strSub_drop {s : Str} {n : Nat} : strSub (s.drop n) s := fun _ hc =>
  List.drop_subset n s hc

theorem strSub_trans {a b c : Str} (h1 : strSub a b) (h2 : strSub b c) : strSub a c :=
  fun x hx => h2 x (h1 x hx)

theorem Locale.fromLang_sub (base : Str) (enc mod : Option Str) :
    strSub (Locale.fromLang base enc mod).lang base
    ∧ optSub (Locale.fromLang base enc mod).country base
    ∧ (Locale.fromLang base enc mod).encoding = enc
    ∧ (Locale.fromLang base enc mod).modifier = mod := by
  unfold Locale.fromLang
  rcases idxOf? '_' base with _ | i <;> dsimp only
  · exact ⟨strSub_refl base, fun x hx => Option.noConfusion hx, rfl, rfl⟩
  · refine ⟨strSub_take, ?_, rfl, rfl⟩
    intro x hx c hc
    rw [← Option.some.inj hx] at hc
    exact strSub_drop c hc

theorem Locale.fromEnc_sub (base : Str) (mod : Option Str) :
    strSub (Locale.fromEnc base mod).lang base
    ∧ optSub (Locale.fromEnc base mod).country base
    ∧ optSub (Locale.fromEnc base mod).encoding base
    ∧ (Locale.fromEnc base mod).modifier = mod := by
  unfold Locale.fromEnc
  rcases idxOfLast? '.' base with _ | i <;> dsimp only
  · obtain ⟨h1, h2, h3, h4⟩ := Locale.fromLang_sub base none mod
    refine ⟨h1, h2, ?_, h4⟩
    rw [h3]
    exact fun x hx => Option.noConfusion hx
  · obtain ⟨h1, h2, h3, h4⟩ := Locale.fromLang_sub (base.take i) (some (base.drop (i + 1))) mod
    refine ⟨strSub_trans h1 strSub_take, ?_, ?_, h4⟩
    · intro x hx c hc
      exact strSub_take c (h2 x hx c hc)
    · intro x hx c hc
      rw [h3] at hx
      rw [← Option.some.inj hx] at hc
      exact strSub_drop c hc

theorem Locale.fromString_sub (s : Str) :
    strSub (Locale.fromString s).lang s
    ∧ optSub (Locale.fromString s).country s
    ∧ optSub (Locale.fromString s).encoding s
    ∧ optSub (Locale.fromString s).modifier s := by
  unfold Locale.fromString
  rcases idxOfLast? '@' s with _ | i <;> dsimp only
  · obtain ⟨h1, h2, h3, h4⟩ := Locale.fromEnc_sub s none
    refine ⟨h1, h2, h3, ?_⟩
    rw [h4]
    exact fun x hx => Option.noConfusion hx
  · obtain ⟨h1, h2, h3, h4⟩ := Locale.fromEnc_sub (s.take i) (some (s.drop (i + 1)))
    refine ⟨strSub_trans h1 strSub_take, ?_, ?_, ?_⟩
    · intro x hx c hc
      exact strSub_take c (h2 x hx c hc)
    · intro x hx c hc
      exact strSub_take c (h3 x hx c hc)
    · intro x hx c hc
      rw [h4] at hx
      rw [← Option.some.inj hx] at hc
      exact strSub_drop c hc

end DesktopEntrySpec

namespace DesktopEntrySpec

-- ============================================================================
-- Key-character consequences
-- ============================================================================

theorem isKeyChar_ne {c : Char} (h : isKeyChar c = true) :
    isWs c = false ∧ c ≠ '=' ∧ c ≠ '[' ∧ c ≠ ']' ∧ c ≠ '#' := by
  refine ⟨?_, ?_, ?_, ?_, ?_⟩
  · by_contra hw
    simp only [Bool.not_eq_false] at hw
    have : ((c = ' ' ∨ c = '\t') ∨ c = '\n') ∨ c = '\r' := by
      simpa [isWs, Bool.or_eq_true, decide_eq_true_iff] using hw
    rcases this with ((rfl | rfl) | rfl) | rfl <;> exact absurd h (by decide)
  · intro hc
    subst hc
    exact absurd h (by decide)
  · intro hc
    subst hc
    exact absurd h (by decide)
  · intro hc
    subst hc
    exact absurd h (by decide)
  · intro hc
    subst hc
    exact absurd h (by decide)

theorem validKey_not_mem {k : Str} (h : k.all isKeyChar = true) :
    '=' ∉ k ∧ '[' ∉ k ∧ ']' ∉ k ∧ (∀ c ∈ k, isWs c = false) := by
  have hall := List.all_eq_true.mp h
  refine ⟨?_, ?_, ?_, ?_⟩
  · intro hm
    exact absurd (hall _ hm) (by decide)
  · intro hm
    exact absurd (hall _ hm) (by decide)
  · intro hm
    exact absurd (hall _ hm) (by decide)
  · intro c hc
    exact (isKeyChar_ne (hall _ hc)).1

-- ============================================================================
-- stepLine characterizations
-- ============================================================================

theorem stepLine_blank_some {n : Nat} {st : PState} {g : Str} (h : st.current = some g) :
    stepLine n st [] = some (.ok st) := by
  have ht : trim ([] : Str) = [] := rfl
  unfold stepLine
  rw [ht]
  simp [h]

theorem stepLine_blank_none {n : Nat} {st : PState} (h : st.current = none) :
    stepLine n st [] =
      some (.ok { st with comments := st.comments ++ [⟨n, [], true⟩] }) := by
  have ht : trim ([] : Str) = [] := rfl
  unfold stepLine
  rw [ht]
  simp [h]

theorem stepLine_comment_none {n : Nat} {st : PState} {content : Str}
    (h : st.current = none) (hc : trim ('#' :: content) = '#' :: content) :
    stepLine n st ('#' :: content) =
      some (.ok { st with comments := st.comments ++ [⟨n, content, false⟩] }) := by
  unfold stepLine
  rw [hc]
  simp [h]

theorem stepLine_header {n : Nat} {st : PState} (name : Str)
    (hdup : alookup name st.groups = none) :
    stepLine n st (headerLine name) =
      some (.ok ⟨st.groups ++ [(name, [])], some name, st.comments⟩) := by
  have ht : trim (headerLine name) = headerLine name := by
    unfold headerLine
    rw [show '[' :: (name ++ [']']) = '[' :: (name ++ [']']) from rfl]
    exact trim_concat_of_nonws (by decide) (by decide)
  have hlast : (headerLine name).getLast? = some ']' := by
    unfold headerLine
    rw [show ('[' :: (name ++ [']']) : Str) = ('[' :: name) ++ [']'] by simp]
    exact List.getLast?_concat _
  have hname : ((headerLine name).drop 1).dropLast = name := by
    unfold headerLine
    rw [show ('[' :: (name ++ [']']) : Str) = '[' :: (name ++ [']']) from rfl]
    simp only [List.drop_succ_cons, List.drop_zero]
    exact List.dropLast_concat
  unfold stepLine
  rw [ht]
  rw [if_neg (show ¬(headerLine name = []) by simp [headerLine])]
  rw [if_neg (show ¬((headerLine name).head? = some '#') by simp [headerLine])]
  rw [if_pos (show (headerLine name).head? = some '[' from rfl)]
  rw [if_pos hlast]
  rw [hname]
  simp [hdup]

theorem stepLine_kv_untagged {n : Nat} {st : PState} {g k v : Str}
    (hcur : st.current = some g) (hk : k.all isKeyChar = true) :
    stepLine n st (k ++ '=' :: v) =
      some (.ok ⟨updateGroup st.groups g (fun gd => pushEntry gd k ⟨k, none, v⟩),
        st.current, st.comments⟩) := by
  obtain ⟨hne, hnb, hnr, hnw⟩ := validKey_not_mem hk
  have hsf : splitFirst '=' (k ++ '=' :: v) = some (k, v) := splitFirst_append hne
  have hex : extractKeyLocale k = .ok k none := by
    unfold extractKeyLocale
    rw [idxOf?_eq_none_iff.mpr hnb, trim_of_all_nonws hnw]
  have hhead : ∀ t : Str, trim (k ++ '=' :: v) = t →
      t ≠ [] ∧ t.head? ≠ some '#' ∧ t.head? ≠ some '[' := by
    intro t htr
    cases k with
    | nil =>
      have := @trim_cons_head '=' v (by decide)
      rw [List.nil_append] at htr
      rw [htr] at this
      exact ⟨this.1, by rw [this.2]; decide, by rw [this.2]; decide⟩
    | cons a r =>
      have ha : isKeyChar a = true := List.all_eq_true.mp hk a (by simp)
      have := @trim_cons_head a (r ++ '=' :: v) (isKeyChar_ne ha).1
      rw [List.cons_append] at htr
      rw [htr] at this
      obtain ⟨-, -, -, -, h5⟩ := isKeyChar_ne ha
      refine ⟨this.1, ?_, ?_⟩
      · rw [this.2]
        intro hh
        exact h5 (by injection hh)
      · rw [this.2]
        intro hh
        exact (isKeyChar_ne ha).2.2.1 (by injection hh)
  obtain ⟨h1, h2, h3⟩ := hhead _ rfl
  unfold stepLine
  rw [if_neg h1, if_neg h2, if_neg h3, hsf]
  dsimp only
  rw [hex]
  dsimp only
  rw [if_neg (show ¬¬(k.all isKeyChar = true) from not_not_intro hk)]
  rw [hcur]

end DesktopEntrySpec

namespace DesktopEntrySpec

theorem extractKeyLocale_tagged {k R : Str} (hk : k.all isKeyChar = true)
    (hRe : '=' ∉ R) (hRb : ']' ∉ R) :
    extractKeyLocale (k ++ '[' :: (R ++ [']'])) = .ok k (some (Locale.fromString R)) := by
  obtain ⟨hne, hnb, hnr, hnw⟩ := validKey_not_mem hk
  have hidx1 : idxOf? '[' (k ++ '[' :: (R ++ [']'])) = some k.length :=
    idxOf?_append_first hnb
  have hkp : k ++ '[' :: (R ++ [']']) = (k ++ '[' :: R) ++ ']' :: [] := by simp
  have hnr2 : ']' ∉ k ++ '[' :: R := by
    intro hm
    rcases List.mem_append.mp hm with h | h
    · exact hnr h
    · rcases List.mem_cons.mp h with h | h
      · cases h
      · exact hRb h
  have hidx2 : idxOf? ']' (k ++ '[' :: (R ++ [']'])) = some (k ++ '[' :: R).length := by
    rw [hkp]
    exact idxOf?_append_first hnr2
  have hlen : (k ++ '[' :: R).length = k.length + R.length + 1 := by
    simp
    omega
  have htake1 : (k ++ '[' :: (R ++ [']'])).take k.length = k := List.take_left k _
  have htake2 : (k ++ '[' :: (R ++ [']'])).take (k ++ '[' :: R).length = k ++ '[' :: R := by
    rw [hkp]
    exact List.take_left _ _
  have hdrop : (k ++ '[' :: R).drop (k.length + 1) = R := by
    rw [List.drop_append 1]
    rfl
  unfold extractKeyLocale
  rw [hidx1, hidx2]
  dsimp only
  rw [if_neg (by rw [hlen]; omega)]
  rw [htake1, htake2, hdrop, trim_of_all_nonws hnw]

theorem stepLine_kv_tagged {n : Nat} {st : PState} {g k R v : Str}
    (hcur : st.current = some g) (hk : k.all isKeyChar = true) (hk0 : k ≠ [])
    (hRe : '=' ∉ R) (hRb : ']' ∉ R) :
    stepLine n st (k ++ '[' :: (R ++ ']' :: '=' :: v)) =
      some (.ok ⟨updateGroup st.groups g
        (fun gd => pushEntry gd k ⟨k, some (Locale.fromString R), v⟩),
        st.current, st.comments⟩) := by
  obtain ⟨hne, hnb, hnr, hnw⟩ := validKey_not_mem hk
  have hline : k ++ '[' :: (R ++ ']' :: '=' :: v) = (k ++ '[' :: (R ++ [']'])) ++ '=' :: v := by
    simp
  have hkpne : '=' ∉ k ++ '[' :: (R ++ [']']) := by
    intro hm
    rcases List.mem_append.mp hm with h | h
    · exact hne h
    · rcases List.mem_cons.mp h with h | h
      · cases h
      · rcases List.mem_append.mp h with h | h
        · exact hRe h
        · rcases List.mem_cons.mp h with h | h
          · cases h
          · cases h
  have hsf : splitFirst '=' (k ++ '[' :: (R ++ ']' :: '=' :: v)) =
      some (k ++ '[' :: (R ++ [']']), v) := by
    rw [hline]
    exact splitFirst_append hkpne
  have hhead : trim (k ++ '[' :: (R ++ ']' :: '=' :: v)) ≠ [] ∧
      (trim (k ++ '[' :: (R ++ ']' :: '=' :: v))).head? ≠ some '#' ∧
      (trim (k ++ '[' :: (R ++ ']' :: '=' :: v))).head? ≠ some '[' := by
    cases k with
    | nil => exact absurd rfl hk0
    | cons a r =>
      have ha : isKeyChar a = true := List.all_eq_true.mp hk a (by simp)
      have hth := @trim_cons_head a (r ++ '[' :: (R ++ ']' :: '=' :: v))
        (isKeyChar_ne ha).1
      rw [← List.cons_append] at hth
      refine ⟨hth.1, ?_, ?_⟩
      · rw [hth.2]
        intro hh
        exact (isKeyChar_ne ha).2.2.2.2 (by injection hh)
      · rw [hth.2]
        intro hh
        exact (isKeyChar_ne ha).2.2.1 (by injection hh)
  obtain ⟨h1, h2, h3⟩ := hhead
  unfold stepLine
  rw [if_neg h1, if_neg h2, if_neg h3, hsf]
  dsimp only
  rw [extractKeyLocale_tagged hk hRe hRb]
  dsimp only
  rw [if_neg (show ¬¬(k.all isKeyChar = true) from not_not_intro hk)]
  rw [hcur]

theorem runLines_append (l1 l2 : List Str) (n : Nat) (st : PState) :
    runLines (l1 ++ l2) n st =
      match runLines l1 n st with
      | some (.ok st') => runLines l2 (n + l1.length) st'
      | r => r := by
  induction l1 generalizing n st with
  | nil => simp [runLines]
  | cons l ls ih =>
    rw [List.cons_append]
    simp only [runLines]
    rcases h : stepLine n st l with _ | r
    · rfl
    · rcases r with e | st'
      · rfl
      · dsimp only
        rw [ih]
        have harith : n + 1 + ls.length = n + (ls.length + 1) := by omega
        rw [harith]
        rw [show (l :: ls).length = ls.length + 1 by simp]

end DesktopEntrySpec

namespace DesktopEntrySpec

theorem extractKeyLocale_ok_cases {kp key : Str} {loc : Option Locale}
    (h : extractKeyLocale kp = .ok key loc) :
    (loc = none ∧ key = trim kp ∧ idxOf? '[' kp = none)
    ∨ (∃ bs be, idxOf? '[' kp = some bs ∧ idxOf? ']' kp = some be ∧ bs + 1 ≤ be ∧
        key = trim (kp.take bs) ∧
        loc = some (Locale.fromString ((kp.take be).drop (bs + 1)))) := by
  unfold extractKeyLocale at h
  rcases h1 : idxOf? '[' kp with _ | bs
  · rw [h1] at h
    dsimp only at h
    cases h
    exact Or.inl ⟨rfl, rfl, rfl⟩
  · rw [h1] at h
    dsimp only at h
    rcases h2 : idxOf? ']' kp with _ | be
    · rw [h2] at h
      cases h
    · rw [h2] at h
      dsimp only at h
      by_cases hgt : bs + 1 > be
      · rw [if_pos hgt] at h
        cases h
      · rw [if_neg hgt] at h
        cases h
        exact Or.inr ⟨bs, be, rfl, rfl, by omega, rfl, rfl⟩

theorem stepLine_ok_cases {n : Nat} {st st₂ : PState} {l : Str}
    (h : stepLine n st l = some (.ok st₂)) :
    (st₂.groups = st.groups ∧ st₂.current = st.current ∧
      (st₂.comments = st.comments ∨ ∃ c : Comment, st₂.comments = st.comments ++ [c] ∧
        (c.is_blank = true ∨ (c.is_blank = false ∧ trim l = '#' :: c.content))))
    ∨ (∃ name, trim l = headerLine name ∧ alookup name st.groups = none ∧
        st₂ = ⟨st.groups ++ [(name, [])], some name, st.comments⟩)
    ∨ (∃ g kp v key loc, st.current = some g ∧ splitFirst '=' l = some (kp, v) ∧
        extractKeyLocale kp = .ok key loc ∧ key.all isKeyChar = true ∧
        (trim l).head? ≠ some '[' ∧
        st₂ = ⟨updateGroup st.groups g (fun gd => pushEntry gd key ⟨key, loc, v⟩),
          st.current, st.comments⟩) := by
  unfold stepLine at h
  by_cases h1 : trim l = []
  · rw [if_pos h1] at h
    by_cases hc : st.current = none
    · rw [if_pos hc] at h
      cases h
      exact Or.inl ⟨rfl, rfl, Or.inr ⟨⟨n, [], true⟩, rfl, Or.inl rfl⟩⟩
    · rw [if_neg hc] at h
      cases h
      exact Or.inl ⟨rfl, rfl, Or.inl rfl⟩
  · rw [if_neg h1] at h
    by_cases h2 : (trim l).head? = some '#'
    · rw [if_pos h2] at h
      by_cases hc : st.current = none
      · rw [if_pos hc] at h
        cases h
        refine Or.inl ⟨rfl, rfl, Or.inr ⟨⟨n, (trim l).drop 1, false⟩, rfl, Or.inr ⟨rfl, ?_⟩⟩⟩
        rcases ht : trim l with _ | ⟨a, rest⟩
        · exact absurd ht h1
        · rw [ht] at h2
          simp at h2
          rw [h2]
          rfl
      · rw [if_neg hc] at h
        cases h
        exact Or.inl ⟨rfl, rfl, Or.inl rfl⟩
    · rw [if_neg h2] at h
      by_cases h3 : (trim l).head? = some '['
      · rw [if_pos h3] at h
        by_cases h4 : (trim l).getLast? = some ']'
        · rw [if_pos h4] at h
          by_cases h5 : (alookup (((trim l).drop 1).dropLast) st.groups).isSome = true
          · rw [if_pos h5] at h
            cases h
          · rw [if_neg h5] at h
            cases h
            refine Or.inr (Or.inl ⟨((trim l).drop 1).dropLast, ?_, ?_, rfl⟩)
            · rcases ht : trim l with _ | ⟨a, rest⟩
              · exact absurd ht h1
              · rw [ht] at h3 h4
                simp at h3
                subst h3
                rcases rest.eq_nil_or_concat with rfl | ⟨xs, b, rfl⟩
                · simp at h4
                · rw [List.concat_eq_append] at h4 ⊢
                  rw [show ('[' :: (xs ++ [b]) : Str) = ('[' :: xs) ++ [b] by simp] at h4
                  rw [List.getLast?_concat] at h4
                  have hb : b = ']' := by simpa using h4
                  subst hb
                  simp [headerLine, List.dropLast_concat]
            · simpa using h5
        · rw [if_neg h4] at h
          cases h
      · rw [if_neg h3] at h
        rcases hsf : splitFirst '=' l with _ | ⟨kp, v⟩
        · rw [hsf] at h
          cases h
        · rw [hsf] at h
          dsimp only at h
          rcases hex : extractKeyLocale kp with _ | _ | ⟨key, loc⟩
          · rw [hex] at h
            dsimp only at h
            cases h
          · rw [hex] at h
            dsimp only at h
            cases h
          · rw [hex] at h
            dsimp only at h
            by_cases hkv : key.all isKeyChar = true
            · rw [if_neg (not_not_intro hkv)] at h
              rcases hcur : st.current with _ | g
              · rw [hcur] at h
                cases h
              · rw [hcur] at h
                dsimp only at h
                cases h
                exact Or.inr (Or.inr ⟨g, kp, v, key, loc, rfl, rfl, hex, hkv, h3, rfl⟩)
            · rw [if_pos hkv] at h
              cases h

end DesktopEntrySpec

namespace DesktopEntrySpec

theorem alookup_mem {β : Type} {k : Str} {v : β} {m : List (Str × β)}
    (h : alookup k m = some v) : (k, v) ∈ m := by
  induction m with
  | nil => cases h
  | cons p rest ih =>
    obtain ⟨k', v'⟩ := p
    unfold alookup at h
    by_cases hk : k' = k
    · rw [if_pos hk] at h
      subst hk
      cases h
      simp
    · rw [if_neg hk] at h
      exact List.mem_cons_of_mem _ (ih h)

theorem idxOf?_take_not_mem {c : Char} {s : Str} {i : Nat} (h : idxOf? c s = some i) :
    c ∉ s.take i := by
  induction s generalizing i with
  | nil => cases h
  | cons x xs ih =>
    unfold idxOf? at h
    by_cases hx : x = c
    · rw [if_pos hx] at h
      cases h
      simp
    · rw [if_neg hx] at h
      rcases hr : idxOf? c xs with _ | j
      · rw [hr] at h
        cases h
      · rw [hr] at h
        cases h
        rw [List.take_cons_succ]
        intro hm
        rcases List.mem_cons.mp hm with rfl | hm'
        · exact hx rfl
        · exact ih hr hm'

theorem idxOf?_decomp {c : Char} {s : Str} {i : Nat} (h : idxOf? c s = some i) :
    s = s.take i ++ c :: s.drop (i + 1) := by
  induction s generalizing i with
  | nil => cases h
  | cons x xs ih =>
    unfold idxOf? at h
    by_cases hx : x = c
    · rw [if_pos hx] at h
      cases h
      simp [hx]
    · rw [if_neg hx] at h
      rcases hr : idxOf? c xs with _ | j
      · rw [hr] at h
        cases h
      · rw [hr] at h
        cases h
        rw [List.take_cons_succ, List.drop_succ_cons, List.cons_append]
        rw [← ih hr]

theorem trimLeft_ws_prefix {a x : Str} (h : ∀ c ∈ a, isWs c = true) :
    trimLeft (a ++ x) = trimLeft x := by
  induction a with
  | nil => simp
  | cons y ys ih =>
    rw [List.cons_append]
    unfold trimLeft
    rw [List.dropWhile_cons_of_pos (h y (by simp))]
    exact ih (fun c hc => h c (List.mem_cons_of_mem _ hc))

/-- Every key of every stored bucket is made of key characters. -/
def goodKeys (gd : GroupData) : Prop := ∀ q ∈ gd, q.1.all isKeyChar = true

theorem stepLine_preserves_goodKeys {n : Nat} {st st₂ : PState} {l : Str}
    (h : stepLine n st l = some (.ok st₂))
    (hinv : ∀ p ∈ st.groups, goodKeys p.2) :
    ∀ p ∈ st₂.groups, goodKeys p.2 := by
  rcases stepLine_ok_cases h with ⟨hg, -, -⟩ | ⟨name, -, -, rfl⟩ |
    ⟨g, kp, v, key, loc, -, -, -, hkv, -, rfl⟩
  · rw [hg]
    exact hinv
  · intro p hp
    rcases List.mem_append.mp hp with hp' | hp'
    · exact hinv p hp'
    · rcases List.mem_singleton.mp hp' with rfl
      intro q hq
      cases hq
  · intro p hp
    rcases mem_updateGroup hp with hp' | ⟨gd₀, hm, rfl⟩
    · exact hinv p hp'
    · intro q hq
      rcases mem_pushEntry hq with hq' | ⟨es₀, rfl, -⟩
      · exact hinv (g, gd₀) hm q hq'
      · exact hkv

theorem runLines_preserves_goodKeys :
    ∀ (ls : List Str) (n : Nat) (st st₂ : PState),
    runLines ls n st = some (.ok st₂) →
    (∀ p ∈ st.groups, goodKeys p.2) →
    ∀ p ∈ st₂.groups, goodKeys p.2 := by
  intro ls
  induction ls with
  | nil =>
    intro n st st₂ h hinv
    unfold runLines at h
    cases h
    exact hinv
  | cons l rest ih =>
    intro n st st₂ h hinv
    unfold runLines at h
    rcases hs : stepLine n st l with _ | r
    · rw [hs] at h
      cases h
    · rw [hs] at h
      rcases r with e | st'
      · dsimp only at h
        cases h
      · dsimp only at h
        exact ih (n + 1) st' st₂ h (stepLine_preserves_goodKeys hs hinv)

theorem stepLine_groups_from_header {n : Nat} {st st₂ : PState} {l : Str}
    (h : stepLine n st l = some (.ok st₂)) :
    ∀ k, (alookup k st₂.groups).isSome = true →
      (alookup k st.groups).isSome = true ∨ trim l = headerLine k := by
  intro k hk
  rcases stepLine_ok_cases h with ⟨hg, -, -⟩ | ⟨name, hname, -, rfl⟩ |
    ⟨g, kp, v, key, loc, -, -, -, -, -, rfl⟩
  · rw [hg] at hk
    exact Or.inl hk
  · dsimp only at hk
    rw [alookup_append_single] at hk
    rcases ha : alookup k st.groups with _ | x
    · rw [ha] at hk
      dsimp only at hk
      by_cases hn : name = k
      · subst hn
        exact Or.inr hname
      · rw [if_neg hn] at hk
        cases hk
    · rw [ha] at hk
      exact Or.inl rfl
  · dsimp only at hk
    rw [alookup_updateGroup] at hk
    by_cases hg : g = k
    · rw [if_pos hg] at hk
      left
      rcases ha : alookup k st.groups with _ | x
      · rw [ha] at hk
        simp at hk
      · rfl
    · rw [if_neg hg] at hk
      exact Or.inl hk

theorem runLines_groups_from_header :
    ∀ (ls : List Str) (n : Nat) (st st₂ : PState),
    runLines ls n st = some (.ok st₂) →
    ∀ k, (alookup k st₂.groups).isSome = true →
      (alookup k st.groups).isSome = true ∨ ∃ l ∈ ls, trim l = headerLine k := by
  intro ls
  induction ls with
  | nil =>
    intro n st st₂ h k hk
    unfold runLines at h
    cases h
    exact Or.inl hk
  | cons l rest ih =>
    intro n st st₂ h k hk
    unfold runLines at h
    rcases hs : stepLine n st l with _ | r
    · rw [hs] at h
      cases h
    · rw [hs] at h
      rcases r with e | st'
      · dsimp only at h
        cases h
      · dsimp only at h
        rcases ih (n + 1) st' st₂ h k hk with h1 | ⟨l', hl', hh⟩
        · rcases stepLine_groups_from_header hs k h1 with h2 | h2
          · exact Or.inl h2
          · exact Or.inr ⟨l, by simp, h2⟩
        · exact Or.inr ⟨l', List.mem_cons_of_mem _ hl', hh⟩

theorem buildDoc_ok_hasDE {gs : List (Str × GroupData)} {cs : List Comment}
    {d : DesktopEntry} (h : buildDoc gs cs = .ok d) :
    (alookup dE gs).isSome = true := by
  unfold buildDoc at h
  rcases hd : alookup dE gs with _ | md
  · rw [hd] at h
    cases h
  · rfl

end DesktopEntrySpec

namespace DesktopEntrySpec

/-- C5 (amended): a successful parse requires a `[Desktop Entry]` header
line somewhere in the text (not necessarily first); and when the line loop
completes without a structural error but no Desktop Entry group was seen,
parse fails with `MissingDesktopEntryGroup`. -/
theorem c5_desktop_entry_group_required :
    headerLine dE = S "[Desktop Entry]"
    ∧ (∀ (s : Str) (d : DesktopEntry), parse s = some (.ok d) →
        ∃ l ∈ rustLines s, trim l = headerLine dE)
    ∧ (∀ (s : Str) (st : PState),
        runLines (rustLines s) 1 ⟨[], none, []⟩ = some (.ok st) →
        alookup dE st.groups = none →
        parse s = some (.error .MissingDesktopEntryGroup)) := by
  refine ⟨by decide, ?_, ?_⟩
  · intro s d hp
    obtain ⟨st, hrun, hb⟩ := (parse_ok_iff s d).mp hp
    have hde := buildDoc_ok_hasDE hb
    rcases runLines_groups_from_header (rustLines s) 1 ⟨[], none, []⟩ st hrun dE hde with
      h1 | h2
    · simp [alookup] at h1
    · exact h2
  · intro s st hrun hnone
    unfold parse
    rw [hrun]
    dsimp only
    unfold buildDoc
    rw [hnone]

/-- Witness for C5 at the concrete input `wKV`. -/
theorem c5_desktop_entry_group_required_witness :
    ∃ l ∈ rustLines wKV, trim l = headerLine dE :=
  c5_desktop_entry_group_required.2.1 wKV (docOf wKV) (by decide)

/-- C6 (amended): a key-value line whose bare key contains a character
outside `[A-Za-z0-9-]` makes the parser fail with `InvalidKeyName` carrying
the line number and the key (the empty key, however, is accepted); and in
every successfully parsed document, every key of the raw main group, of
`unknown_keys`, and of every additional group consists only of
`[A-Za-z0-9-]` characters. -/
theorem c6_key_name_validity :
    (∀ (n : Nat) (st : PState) (l kp v key : Str) (loc : Option Locale),
      trim l ≠ [] → (trim l).head? ≠ some '#' → (trim l).head? ≠ some '[' →
      splitFirst '=' l = some (kp, v) → extractKeyLocale kp = .ok key loc →
      ¬ key.all isKeyChar = true →
      stepLine n st l = some (.error (.InvalidKeyName n key)))
    ∧ (∀ (s : Str) (d : DesktopEntry), parse s = some (.ok d) →
        (∀ md, mainRaw s = some md → ∀ q ∈ md, q.1.all isKeyChar = true)
        ∧ (∀ q ∈ d.unknown_keys, q.1.all isKeyChar = true)
        ∧ (∀ g ∈ d.additional_groups, ∀ q ∈ g.2.entries, q.1.all isKeyChar = true)) := by
  constructor
  · intro n st l kp v key loc h1 h2 h3 hsf hex hbad
    unfold stepLine
    rw [if_neg h1, if_neg h2, if_neg h3, hsf]
    dsimp only
    rw [hex]
    dsimp only
    rw [if_pos hbad]
  · intro s d hp
    obtain ⟨st, hrun, hb⟩ := (parse_ok_iff s d).mp hp
    have hkeys : ∀ p ∈ st.groups, goodKeys p.2 :=
      runLines_preserves_goodKeys (rustLines s) 1 ⟨[], none, []⟩ st hrun
        (by intro p hp'; cases hp')
    rcases hmd : alookup dE st.groups with _ | md
    · exact absurd (buildDoc_ok_hasDE hb) (by rw [hmd]; simp)
    · have hmdg : goodKeys md := hkeys (dE, md) (alookup_mem hmd)
      obtain ⟨-, -, -, -, -, -, -, -, -, -, -, -, -, -, -, -, -, -, -, -, -, -, -, -,
        -, hunk, hadd, -⟩ := buildDoc_ok_fields hmd hb
      refine ⟨?_, ?_, ?_⟩
      · intro md' hmd' q hq
        rw [mainRaw_eq hrun, hmd] at hmd'
        cases hmd'
        exact hmdg q hq
      · intro q hq
        rw [hunk] at hq
        exact hmdg q (List.mem_of_mem_filter hq)
      · intro g hg q hq
        rw [hadd] at hg
        rcases List.mem_map.mp hg with ⟨⟨n', gd'⟩, hmem, hge⟩
        have hmem' : (n', gd') ∈ st.groups := List.mem_of_mem_filter hmem
        have : g.2.entries = gd' := by
          rw [← hge]
        rw [this] at hq
        exact hkeys (n', gd') hmem' q hq

/-- Witness for C6 at the concrete input `wKV` (and a concrete bad-key
step, the line `My.Key=1`). -/
theorem c6_key_name_validity_witness :
    (∀ md, mainRaw wKV = some md → ∀ q ∈ md, q.1.all isKeyChar = true)
    ∧ stepLine 7 ⟨[(dE, [])], some dE, []⟩ (S "My.Key=1") =
        some (.error (.InvalidKeyName 7 (S "My.Key"))) :=
  ⟨(c6_key_name_validity.2 wKV (docOf wKV) (by decide)).1,
   c6_key_name_validity.1 7 ⟨[(dE, [])], some dE, []⟩ (S "My.Key=1") (S "My.Key")
     (S "1") (S "My.Key") none (by decide) (by decide) (by decide) (by decide)
     (by decide) (by decide)⟩

end DesktopEntrySpec

namespace DesktopEntrySpec

-- ============================================================================
-- Cleanliness invariants of the line loop (used for the round-trip claim)
-- ============================================================================

/-- A string with no line-break characters. -/
def cleanStr (x : Str) : Prop := ∀ c ∈ x, c ≠ '\n' ∧ c ≠ '\r'

/-- A locale-component string: no line breaks, no `=`, no `]`. -/
def cleanLocStr (x : Str) : Prop := ∀ c ∈ x, c ≠ '\n' ∧ c ≠ '\r' ∧ c ≠ '=' ∧ c ≠ ']'

/-- All components of a locale are clean. -/
def cleanLocale (lo : Locale) : Prop :=
  cleanLocStr lo.lang ∧ (∀ x, lo.country = some x → cleanLocStr x) ∧
  (∀ x, lo.encoding = some x → cleanLocStr x) ∧ (∀ x, lo.modifier = some x → cleanLocStr x)

theorem cleanLocale_fromString {R : Str} (h : cleanLocStr R) :
    cleanLocale (Locale.fromString R) := by
  obtain ⟨h1, h2, h3, h4⟩ := Locale.fromString_sub R
  exact ⟨fun c hc => h c (h1 c hc), fun x hx c hc => h c (h2 x hx c hc),
    fun x hx c hc => h c (h3 x hx c hc), fun x hx c hc => h c (h4 x hx c hc)⟩

/-- An entry as stored by the line loop under bucket key `k`: clean value,
and a locale tag only with a nonempty key and clean locale. -/
def goodEntry (k : Str) (e : Entry) : Prop :=
  cleanStr e.value ∧ ∀ lo, e.locale = some lo → k ≠ [] ∧ cleanLocale lo

/-- Invariant of the parser state over the line loop. -/
structure SInv (st : PState) : Prop where
  nodup : (st.groups.map Prod.fst).Nodup
  names : ∀ p ∈ st.groups, cleanStr p.1
  entries : ∀ p ∈ st.groups, ∀ q ∈ p.2, ∀ e ∈ q.2, goodEntry q.1 e
  comms : ∀ c ∈ st.comments, c.is_blank = false →
    trim ('#' :: c.content) = '#' :: c.content ∧ cleanStr c.content

theorem stepLine_preserves_SInv {n : Nat} {st st₂ : PState} {l : Str}
    (h : stepLine n st l = some (.ok st₂)) (hcl : cleanStr l) (hinv : SInv st) :
    SInv st₂ := by
  rcases stepLine_ok_cases h with ⟨hg, hc, hcm⟩ | ⟨name, hname, hdup, rfl⟩ |
    ⟨g, kp, v, key, loc, hcur, hsf, hex, hkv, hh3, rfl⟩
  · refine ⟨hg ▸ hinv.nodup, hg ▸ hinv.names, hg ▸ hinv.entries, ?_⟩
    rcases hcm with hsame | ⟨c, hcc, hckind⟩
    · exact hsame ▸ hinv.comms
    · rw [hcc]
      intro c' hc' hnb
      rcases List.mem_append.mp hc' with hold | hnew
      · exact hinv.comms c' hold hnb
      · rcases List.mem_singleton.mp hnew with rfl
        rcases hckind with hb | ⟨-, htr⟩
        · rw [hb] at hnb
          cases hnb
        · constructor
          · rw [← htr, trim_trim, htr]
          · intro x hx
            have : x ∈ trim l := by
              rw [htr]
              exact List.mem_cons_of_mem _ hx
            exact hcl x (mem_trim this)
  · refine ⟨?_, ?_, ?_, hinv.comms⟩
    · rw [List.map_append]
      rw [List.nodup_append]
      refine ⟨hinv.nodup, List.nodup_singleton _, ?_⟩
      intro x hx hx'
      simp at hx'
      subst hx'
      exact absurd hx (alookup_eq_none_iff.mp hdup)
    · intro p hp
      rcases List.mem_append.mp hp with hold | hnew
      · exact hinv.names p hold
      · rcases List.mem_singleton.mp hnew with rfl
        intro c hc
        have : c ∈ trim l := by
          rw [hname]
          unfold headerLine
          exact List.mem_cons_of_mem _ (List.mem_append_left _ hc)
        exact hcl c (mem_trim this)
    · intro p hp q hq
      rcases List.mem_append.mp hp with hold | hnew
      · exact hinv.entries p hold q hq
      · rcases List.mem_singleton.mp hnew with rfl
        cases hq
  · obtain ⟨hlkp, hkpne⟩ := splitFirst_spec hsf
    have hval : cleanStr v := by
      intro c hc
      apply hcl
      rw [hlkp]
      exact List.mem_append_right _ (List.mem_cons_of_mem _ hc)
    have hgood : goodEntry key ⟨key, loc, v⟩ := by
      refine ⟨hval, ?_⟩
      intro lo hlo
      rcases extractKeyLocale_ok_cases hex with ⟨hnone, -, -⟩ | ⟨bs, be, hbs, hbe, -, hkey, hloc⟩
      · rw [hnone] at hlo
        cases hlo
      · rw [hloc] at hlo
        cases hlo
        constructor
        · intro hk0
          rw [hk0] at hkey
          have hws : ∀ c ∈ kp.take bs, isWs c = true := trim_eq_nil_ws hkey.symm
          have hdec := idxOf?_decomp hbs
          have hl2 : l = kp.take bs ++ '[' :: (kp.drop (bs + 1) ++ '=' :: v) := by
            rw [hlkp]
            conv_lhs => rw [hdec]
            simp
          have : (trim l).head? = some '[' := by
            unfold trim
            rw [hl2, trimLeft_ws_prefix hws]
            rw [trimLeft_cons_of_nonws (by decide)]
            exact (trimRight_head (by decide)).2
          exact hh3 this
        · apply cleanLocale_fromString
          intro c hc
          have hckp : c ∈ kp.take be := List.drop_subset _ _ hc
          have hcl2 : c ∈ l := by
            rw [hlkp]
            exact List.mem_append_left _ (List.take_subset _ _ hckp)
          refine ⟨(hcl c hcl2).1, (hcl c hcl2).2, ?_, ?_⟩
          · intro hceq
            rw [hceq] at hckp
            exact hkpne (List.take_subset _ _ hckp)
          · intro hceq
            rw [hceq] at hckp
            exact idxOf?_take_not_mem hbe hckp
    refine ⟨?_, ?_, ?_, hinv.comms⟩
    · rw [keys_updateGroup]
      exact hinv.nodup
    · intro p hp
      rcases mem_updateGroup hp with hold | ⟨gd₀, hm, rfl⟩
      · exact hinv.names p hold
      · exact hinv.names (g, gd₀) hm
    · intro p hp q hq
      rcases mem_updateGroup hp with hold | ⟨gd₀, hm, rfl⟩
      · exact hinv.entries p hold q hq
      · rcases mem_pushEntry hq with hold' | ⟨es₀, rfl, hl0⟩
        · exact hinv.entries (g, gd₀) hm q hold'
        · intro e he
          rcases List.mem_append.mp he with he' | he'
          · rcases hl0 with hsome | ⟨rfl, -⟩
            · exact hinv.entries (g, gd₀) hm (key, es₀) (alookup_mem hsome) e he'
            · cases he'
          · rcases List.mem_singleton.mp he' with rfl
            exact hgood

theorem runLines_preserves_SInv :
    ∀ (ls : List Str) (n : Nat) (st st₂ : PState),
    runLines ls n st = some (.ok st₂) → (∀ l ∈ ls, cleanStr l) → SInv st → SInv st₂ := by
  intro ls
  induction ls with
  | nil =>
    intro n st st₂ h hcl hinv
    unfold runLines at h
    cases h
    exact hinv
  | cons l rest ih =>
    intro n st st₂ h hcl hinv
    unfold runLines at h
    rcases hs : stepLine n st l with _ | r
    · rw [hs] at h
      cases h
    · rw [hs] at h
      rcases r with e | st'
      · dsimp only at h
        cases h
      · dsimp only at h
        exact ih (n + 1) st' st₂ h (fun x hx => hcl x (List.mem_cons_of_mem _ hx))
          (stepLine_preserves_SInv hs (hcl l (by simp)) hinv)

theorem rustLines_clean {s : Str} (hcr : ∀ c ∈ s, c ≠ '\r') :
    ∀ l ∈ rustLines s, cleanStr l := by
  intro l hl c hc
  unfold rustLines at hl
  rcases List.mem_map.mp hl with ⟨seg, hseg, rfl⟩
  have hseg' : seg ∈ splitChar '\n' s := by
    by_cases hlast : (splitChar '\n' s).getLast? = some ([] : Str)
    · rw [if_pos hlast] at hseg
      exact (List.dropLast_sublist _).subset hseg
    · rw [if_neg hlast] at hseg
      exact hseg
  obtain ⟨hsub, hnl⟩ := mem_splitChar hseg'
  have hcseg : c ∈ seg := by
    unfold stripCR at hc
    by_cases hr : seg.getLast? = some '\r'
    · rw [if_pos hr] at hc
      exact (List.dropLast_sublist _).subset hc
    · rw [if_neg hr] at hc
      exact hc
  constructor
  · intro hcn
    rw [hcn] at hcseg
    exact hnl hcseg
  · exact hcr c (hsub c hcseg)

end DesktopEntrySpec

namespace DesktopEntrySpec

-- ============================================================================
-- Well-formedness of parse-produced documents
-- ============================================================================

/-- Clean localized string. -/
def goodLS (ls : LocalizedString) : Prop :=
  cleanStr ls.default ∧ ∀ p ∈ ls.localized, cleanLocale p.1 ∧ cleanStr p.2

/-- Clean icon string. -/
def goodIS (ic : IconString) : Prop :=
  cleanStr ic.default ∧ ∀ p ∈ ic.localized, cleanLocale p.1 ∧ cleanStr p.2

/-- Clean localized string list. -/
def goodLSL (kl : LocalizedStringList) : Prop :=
  (∀ x ∈ kl.default, cleanStr x) ∧
  ∀ p ∈ kl.localized, cleanLocale p.1 ∧ ∀ x ∈ p.2, cleanStr x

/-- Clean optional string. -/
def goodOptStr (o : Option Str) : Prop := ∀ x, o = some x → cleanStr x

/-- Clean optional string list. -/
def goodOptList (o : Option (List Str)) : Prop := ∀ xs, o = some xs → ∀ x ∈ xs, cleanStr x

/-- A raw bucket with a valid key and good entries. -/
def goodBucket (q : Str × List Entry) : Prop :=
  q.1.all isKeyChar = true ∧ ∀ e ∈ q.2, goodEntry q.1 e

/-- Well-formedness of a document produced by a successful parse of a
carriage-return-free text: everything the serializer emits is built from
clean strings, keys are valid, additional group names are unique and
distinct from `Desktop Entry`, and leading comments are in trimmed form. -/
structure docWF (d : DesktopEntry) : Prop where
  nameF : goodLS d.name
  versionF : goodOptStr d.version
  genericF : ∀ ls, d.generic_name = some ls → goodLS ls
  commentF : ∀ ls, d.comment = some ls → goodLS ls
  iconF : ∀ ic, d.icon = some ic → goodIS ic
  osiF : goodOptList d.only_show_in
  nsiF : goodOptList d.not_show_in
  tryF : goodOptStr d.try_exec
  execF : goodOptStr d.exec
  pathF : goodOptStr d.path
  actionsF : goodOptList d.actions
  mimeF : goodOptList d.mime_type
  categoriesF : goodOptList d.categories
  implementsF : goodOptList d.implements
  keywordsF : ∀ kl, d.keywords = some kl → goodLSL kl
  wmF : goodOptStr d.startup_wm_class
  urlF : goodOptStr d.url
  unknownF : ∀ q ∈ d.unknown_keys, goodBucket q ∧ knownKeys.contains q.1 = false
  addNodup : (d.additional_groups.map Prod.fst).Nodup
  addNames : ∀ p ∈ d.additional_groups, p.1 ≠ dE ∧ p.2.name = p.1 ∧ cleanStr p.1
  addEntries : ∀ p ∈ d.additional_groups, ∀ q ∈ p.2.entries, goodBucket q
  commsF : ∀ c ∈ d.comments, c.is_blank = false →
    trim ('#' :: c.content) = '#' :: c.content ∧ cleanStr c.content

theorem mem_insertReplace {α β : Type} [DecidableEq α] {m : List (α × β)} {k : α}
    {v : β} {p : α × β} (hp : p ∈ insertReplace m k v) : p ∈ m ∨ p = (k, v) := by
  induction m with
  | nil =>
    unfold insertReplace at hp
    exact Or.inr (List.mem_singleton.mp hp)
  | cons q rest ih =>
    obtain ⟨k', v'⟩ := q
    unfold insertReplace at hp
    by_cases hk : k' = k
    · rw [if_pos hk] at hp
      rcases List.mem_cons.mp hp with rfl | hp'
      · exact Or.inr rfl
      · exact Or.inl (List.mem_cons_of_mem _ hp')
    · rw [if_neg hk] at hp
      rcases List.mem_cons.mp hp with rfl | hp'
      · exact Or.inl (by simp)
      · rcases ih hp' with h | h
        · exact Or.inl (List.mem_cons_of_mem _ h)
        · exact Or.inr h

theorem mem_splitSemi {x v : Str} (hx : x ∈ splitSemi v) : ∀ c ∈ x, c ∈ v := by
  unfold splitSemi at hx
  exact fun c hc => (mem_splitChar (List.mem_of_mem_filter hx)).1 c hc

theorem foldl_lsStep_good {k : Str} :
    ∀ (es : List Entry) (acc : LocalizedString),
    (∀ e ∈ es, goodEntry k e) → goodLS acc → goodLS (es.foldl lsStep acc) := by
  intro es
  induction es with
  | nil => intro acc _ hacc; exact hacc
  | cons e rest ih =>
    intro acc hgood hacc
    rw [List.foldl_cons]
    apply ih _ (fun e' he' => hgood e' (List.mem_cons_of_mem _ he'))
    have he : goodEntry k e := hgood e (by simp)
    unfold lsStep
    rcases hlo : e.locale with _ | lo
    · exact ⟨he.1, hacc.2⟩
    · refine ⟨hacc.1, ?_⟩
      intro p hp
      rcases mem_insertReplace hp with hp' | rfl
      · exact hacc.2 p hp'
      · exact ⟨(he.2 lo hlo).2, he.1⟩

theorem foldl_isStep_good {k : Str} :
    ∀ (es : List Entry) (acc : IconString),
    (∀ e ∈ es, goodEntry k e) → goodIS acc → goodIS (es.foldl isStep acc) := by
  intro es
  induction es with
  | nil => intro acc _ hacc; exact hacc
  | cons e rest ih =>
    intro acc hgood hacc
    rw [List.foldl_cons]
    apply ih _ (fun e' he' => hgood e' (List.mem_cons_of_mem _ he'))
    have he : goodEntry k e := hgood e (by simp)
    unfold isStep
    rcases hlo : e.locale with _ | lo
    · exact ⟨he.1, hacc.2⟩
    · refine ⟨hacc.1, ?_⟩
      intro p hp
      rcases mem_insertReplace hp with hp' | rfl
      · exact hacc.2 p hp'
      · exact ⟨(he.2 lo hlo).2, he.1⟩

theorem foldl_lslStep_good {k : Str} :
    ∀ (es : List Entry) (acc : LocalizedStringList),
    (∀ e ∈ es, goodEntry k e) → goodLSL acc → goodLSL (es.foldl lslStep acc) := by
  intro es
  induction es with
  | nil => intro acc _ hacc; exact hacc
  | cons e rest ih =>
    intro acc hgood hacc
    rw [List.foldl_cons]
    apply ih _ (fun e' he' => hgood e' (List.mem_cons_of_mem _ he'))
    have he : goodEntry k e := hgood e (by simp)
    unfold lslStep
    rcases hlo : e.locale with _ | lo
    · refine ⟨?_, hacc.2⟩
      intro x hx c hc
      exact he.1 c (mem_splitSemi hx c hc)
    · refine ⟨hacc.1, ?_⟩
      intro p hp
      rcases mem_insertReplace hp with hp' | rfl
      · exact hacc.2 p hp'
      · refine ⟨(he.2 lo hlo).2, ?_⟩
        intro x hx c hc
        exact he.1 c (mem_splitSemi hx c hc)

theorem buildLocalizedString_good {k : Str} {es : List Entry}
    (h : ∀ e ∈ es, goodEntry k e) : goodLS (buildLocalizedString es) :=
  foldl_lsStep_good es ⟨[], []⟩ h ⟨fun c hc => absurd hc (by simp), fun p hp => absurd hp (by simp)⟩

theorem buildIconString_good {k : Str} {es : List Entry}
    (h : ∀ e ∈ es, goodEntry k e) : goodIS (buildIconString es) :=
  foldl_isStep_good es ⟨[], []⟩ h ⟨fun c hc => absurd hc (by simp), fun p hp => absurd hp (by simp)⟩

theorem buildLocalizedStringList_good {k : Str} {es : List Entry}
    (h : ∀ e ∈ es, goodEntry k e) : goodLSL (buildLocalizedStringList es) :=
  foldl_lslStep_good es ⟨[], []⟩ h
    ⟨fun x hx => absurd hx (by simp), fun p hp => absurd hp (by simp)⟩

end DesktopEntrySpec

namespace DesktopEntrySpec

theorem bind_head_mem {β : Type} {o : Option (List β)} {e : β}
    (h : o.bind List.head? = some e) : ∃ es, o = some es ∧ e ∈ es := by
  cases o with
  | none => cases h
  | some es =>
    cases es with
    | nil => cases h
    | cons x xs =>
      refine ⟨x :: xs, rfl, ?_⟩
      have hx : some x = some e := h
      cases hx
      simp

theorem mem_eraseKey {α β : Type} [DecidableEq α] {k : α} {m : List (α × β)} {p : α × β}
    (h : p ∈ eraseKey k m) : p ∈ m ∧ p.1 ≠ k := by
  unfold eraseKey at h
  have h2 := List.mem_filter.mp h
  exact ⟨h2.1, by simpa using h2.2⟩

theorem eraseKey_sublist {α β : Type} [DecidableEq α] (k : α) (m : List (α × β)) :
    (eraseKey k m).Sublist m := List.filter_sublist m

theorem parse_wf {s : Str} {d : DesktopEntry} (hcr : ∀ c ∈ s, c ≠ '\r')
    (h : parse s = some (.ok d)) : docWF d := by
  obtain ⟨st, hrun, hb⟩ := (parse_ok_iff s d).mp h
  have hde := buildDoc_ok_hasDE hb
  rcases hmd : alookup dE st.groups with _ | md
  · rw [hmd] at hde
    cases hde
  have hinv : SInv st := runLines_preserves_SInv _ 1 _ st hrun (rustLines_clean hcr)
    ⟨by simp, fun p hp => absurd hp (by simp), fun p hp => absurd hp (by simp),
     fun c hc => absurd hc (by simp)⟩
  have hgk : ∀ p ∈ st.groups, goodKeys p.2 :=
    runLines_preserves_goodKeys _ 1 _ st hrun (fun p hp => absurd hp (by simp))
  obtain ⟨⟨tE, ty, htE, hty, hdty⟩, ⟨nameEs, hN, hname⟩, hver, hgen, hnd, hcom, hic, hhid,
    hosi, hnsi, hdbus, htry, hexec, hpath, hterm, hact, hmime, hcat, himp, hkw, hsn,
    hwm, hurl, hgpu, hsmw, hunk, hadd, hcomm⟩ := buildDoc_ok_fields hmd hb
  have hmdmem : (dE, md) ∈ st.groups := alookup_mem hmd
  have hmg : ∀ q ∈ md, ∀ e ∈ q.2, goodEntry q.1 e := hinv.entries (dE, md) hmdmem
  have hmk : goodKeys md := hgk (dE, md) hmdmem
  have hscalar : ∀ k, goodOptStr (parseOptionalString md k) := by
    intro k x hx
    rw [parseOptionalString_eq] at hx
    rcases ho : (alookup k md).bind List.head? with _ | e
    · rw [ho] at hx
      cases hx
    · rw [ho] at hx
      simp only [Option.map_some'] at hx
      cases hx
      obtain ⟨es, hes, he⟩ := bind_head_mem ho
      exact (hmg (k, es) (alookup_mem hes) e he).1
  have hlist : ∀ k, goodOptList (parseOptionalStringList md k) := by
    intro k xs hxs x hx c hc
    rw [parseOptionalStringList_eq] at hxs
    rcases ho : (alookup k md).bind List.head? with _ | e
    · rw [ho] at hxs
      cases hxs
    · rw [ho] at hxs
      simp only [Option.some_bind] at hxs
      by_cases hnil : (splitChar ';' e.value).filter (fun x => x ≠ []) = []
      · rw [if_pos hnil] at hxs
        cases hxs
      · rw [if_neg hnil] at hxs
        cases hxs
        obtain ⟨es, hes, he⟩ := bind_head_mem ho
        have hx' : x ∈ splitSemi e.value := hx
        exact (hmg (k, es) (alookup_mem hes) e he).1 c (mem_splitSemi hx' c hc)
  have hLS : ∀ k ls, parseOptionalLocalizedString md k = some ls → goodLS ls := by
    intro k ls hls
    unfold parseOptionalLocalizedString at hls
    rcases ho : alookup k md with _ | es
    · rw [ho] at hls
      cases hls
    · rw [ho] at hls
      simp only [Option.map_some'] at hls
      cases hls
      exact buildLocalizedString_good (hmg (k, es) (alookup_mem ho))
  have hIS : ∀ k ic, parseOptionalIconString md k = some ic → goodIS ic := by
    intro k ic hic'
    unfold parseOptionalIconString at hic'
    rcases ho : alookup k md with _ | es
    · rw [ho] at hic'
      cases hic'
    · rw [ho] at hic'
      simp only [Option.map_some'] at hic'
      cases hic'
      exact buildIconString_good (hmg (k, es) (alookup_mem ho))
  have hLSL : ∀ k kl, parseOptionalLocalizedStringList md k = some kl → goodLSL kl := by
    intro k kl hkl
    unfold parseOptionalLocalizedStringList at hkl
    rcases ho : alookup k md with _ | es
    · rw [ho] at hkl
      cases hkl
    · rw [ho] at hkl
      simp only [Option.map_some'] at hkl
      cases hkl
      exact buildLocalizedStringList_good (hmg (k, es) (alookup_mem ho))
  refine ⟨?_, ?_, ?_, ?_, ?_, ?_, ?_, ?_, ?_, ?_, ?_, ?_, ?_, ?_, ?_, ?_, ?_, ?_,
    ?_, ?_, ?_, ?_⟩
  · rw [hname]
    exact buildLocalizedString_good (hmg (S "Name", nameEs) (alookup_mem hN))
  · rw [hver]
    exact hscalar _
  · intro ls hls
    rw [hgen] at hls
    exact hLS _ _ hls
  · intro ls hls
    rw [hcom] at hls
    exact hLS _ _ hls
  · intro ic hic'
    rw [hic] at hic'
    exact hIS _ _ hic'
  · rw [hosi]
    exact hlist _
  · rw [hnsi]
    exact hlist _
  · rw [htry]
    exact hscalar _
  · rw [hexec]
    exact hscalar _
  · rw [hpath]
    exact hscalar _
  · rw [hact]
    exact hlist _
  · rw [hmime]
    exact hlist _
  · rw [hcat]
    exact hlist _
  · rw [himp]
    exact hlist _
  · intro kl hkl
    rw [hkw] at hkl
    exact hLSL _ _ hkl
  · rw [hwm]
    exact hscalar _
  · rw [hurl]
    exact hscalar _
  · intro q hq
    rw [hunk, List.mem_filter] at hq
    obtain ⟨hq1, hq2⟩ := hq
    refine ⟨⟨hmk q hq1, hmg q hq1⟩, by simpa using hq2⟩
  · rw [hadd, List.map_map]
    have hsub := (eraseKey_sublist dE st.groups).map Prod.fst
    exact List.Nodup.sublist hsub hinv.nodup
  · intro p hp
    rw [hadd] at hp
    rcases List.mem_map.mp hp with ⟨g, hg, rfl⟩
    obtain ⟨hgm, hgne⟩ := mem_eraseKey hg
    exact ⟨hgne, rfl, hinv.names g hgm⟩
  · intro p hp q hq
    rw [hadd] at hp
    rcases List.mem_map.mp hp with ⟨g, hg, rfl⟩
    obtain ⟨hgm, -⟩ := mem_eraseKey hg
    exact ⟨hgk g hgm q hq, hinv.entries g hgm q hq⟩
  · rw [hcomm]
    exact hinv.comms

end DesktopEntrySpec

namespace DesktopEntrySpec

-- ============================================================================
-- Round trip: the serialized lines and the entries they parse back to
-- ============================================================================

/-- The entry the parser reconstructs from one serialized `KV` triple: a
locale tag survives as `from_string` of its `to_string_repr`. -/
def tripleEntry : KV → Entry
  | (k, none, v) => ⟨k, none, v⟩
  | (k, some lo, v) => ⟨k, some (Locale.fromString (Locale.toStringRepr lo)), v⟩

/-- One line-loop step on a serialized triple, at the group-data level. -/
def pushKV (gd : GroupData) (t : KV) : GroupData := pushEntry gd t.1 (tripleEntry t)

/-- The raw group data the line loop rebuilds from a list of triples. -/
def buildGD (ts : List KV) : GroupData := ts.foldl pushKV []

/-- A serialized triple the parser can read back: valid key, clean value,
and a locale tag only with a nonempty key and clean locale. -/
def goodTriple (t : KV) : Prop :=
  t.1.all isKeyChar = true ∧ cleanStr t.2.2 ∧
    ∀ lo, t.2.1 = some lo → t.1 ≠ [] ∧ cleanLocale lo

/-- The triples of one additional group, in emission order. -/
def groupTriples (g : Group) : List KV :=
  g.entries.flatMap (fun kv => entryKVs kv.1 kv.2)

theorem nonws_clean {c : Char} (h : isWs c = false) : c ≠ '\n' ∧ c ≠ '\r' := by
  refine ⟨?_, ?_⟩ <;> intro hc <;> rw [hc] at h <;> exact absurd h (by decide)

theorem cleanLocale_repr {lo : Locale} (h : cleanLocale lo) :
    '=' ∉ Locale.toStringRepr lo ∧ ']' ∉ Locale.toStringRepr lo ∧
      cleanStr (Locale.toStringRepr lo) := by
  obtain ⟨h1, h2, h3, h4⟩ := h
  have key : ∀ c ∈ Locale.toStringRepr lo, c ≠ '\n' ∧ c ≠ '\r' ∧ c ≠ '=' ∧ c ≠ ']' := by
    intro c hc
    unfold Locale.toStringRepr at hc
    rcases List.mem_append.mp hc with hc | hc
    · rcases List.mem_append.mp hc with hc | hc
      · rcases List.mem_append.mp hc with hc | hc
        · exact h1 c hc
        · rcases hco : lo.country with _ | x
          · rw [hco] at hc
            cases hc
          · rw [hco] at hc
            rcases List.mem_cons.mp hc with rfl | hc
            · decide
            · exact h2 x hco c hc
      · rcases hen : lo.encoding with _ | x
        · rw [hen] at hc
          cases hc
        · rw [hen] at hc
          rcases List.mem_cons.mp hc with rfl | hc
          · decide
          · exact h3 x hen c hc
    · rcases hmo : lo.modifier with _ | x
      · rw [hmo] at hc
        cases hc
      · rw [hmo] at hc
        rcases List.mem_cons.mp hc with rfl | hc
        · decide
        · exact h4 x hmo c hc
  refine ⟨fun hm => (key _ hm).2.2.1 rfl, fun hm => (key _ hm).2.2.2 rfl, ?_⟩
  intro c hc
  exact ⟨(key c hc).1, (key c hc).2.1⟩

theorem mem_joinSemi {c : Char} :
    ∀ (xs : List Str), c ∈ joinSemi xs → c = ';' ∨ ∃ x ∈ xs, c ∈ x := by
  intro xs
  induction xs with
  | nil =>
    intro hc
    rw [show joinSemi [] = [] by simp [joinSemi, List.intercalate]] at hc
    cases hc
  | cons x rest ih =>
    cases rest with
    | nil =>
      intro hc
      rw [show joinSemi [x] = x by simp [joinSemi, List.intercalate]] at hc
      exact Or.inr ⟨x, by simp, hc⟩
    | cons y r =>
      intro hc
      rw [show joinSemi (x :: y :: r) = x ++ ';' :: joinSemi (y :: r) by
        simp [joinSemi, List.intercalate, List.intersperse]] at hc
      rcases List.mem_append.mp hc with h | h
      · exact Or.inr ⟨x, by simp, h⟩
      · rcases List.mem_cons.mp h with rfl | h
        · exact Or.inl rfl
        · rcases ih h with h | ⟨z, hz, hcz⟩
          · exact Or.inl h
          · exact Or.inr ⟨z, List.mem_cons_of_mem _ hz, hcz⟩

theorem cleanStr_joinSemi {xs : List Str} (h : ∀ x ∈ xs, cleanStr x) :
    cleanStr (joinSemi xs) := by
  intro c hc
  rcases mem_joinSemi xs hc with rfl | ⟨x, hx, hcx⟩
  · exact ⟨by decide, by decide⟩
  · exact h x hx c hcx

theorem boolStr_clean (b : Bool) : cleanStr (boolStr b) := by
  unfold cleanStr
  cases b <;> decide

theorem asStr_clean (ty : DesktopEntryType) : cleanStr ty.asStr := by
  unfold cleanStr
  cases ty <;> decide

theorem optLine_good {K : Str} (hK : K.all isKeyChar = true) {x : Option Str}
    (hx : goodOptStr x) : ∀ t ∈ optLine K x, goodTriple t := by
  intro t ht
  cases x with
  | none => cases ht
  | some v =>
    rcases List.mem_singleton.mp ht with rfl
    exact ⟨hK, hx v rfl, fun lo h => nomatch h⟩

theorem optBoolLine_good {K : Str} (hK : K.all isKeyChar = true) (b : Option Bool) :
    ∀ t ∈ optBoolLine K b, goodTriple t := by
  intro t ht
  cases b with
  | none => cases ht
  | some b' =>
    rcases List.mem_singleton.mp ht with rfl
    exact ⟨hK, boolStr_clean b', fun lo h => nomatch h⟩

theorem optListLine_good {K : Str} (hK : K.all isKeyChar = true) {x : Option (List Str)}
    (hx : goodOptList x) : ∀ t ∈ optListLine K x, goodTriple t := by
  intro t ht
  cases x with
  | none => cases ht
  | some xs =>
    rcases List.mem_singleton.mp ht with rfl
    exact ⟨hK, cleanStr_joinSemi (hx xs rfl), fun lo h => nomatch h⟩

theorem locLines_good {K : Str} (hK : K.all isKeyChar = true) (hK0 : K ≠ [])
    {m : List (Locale × Str)} (hm : ∀ p ∈ m, cleanLocale p.1 ∧ cleanStr p.2) :
    ∀ t ∈ locLines K m, goodTriple t := by
  intro t ht
  rcases List.mem_map.mp ht with ⟨p, hp, rfl⟩
  refine ⟨hK, (hm p hp).2, ?_⟩
  intro lo h
  cases h
  exact ⟨hK0, (hm p hp).1⟩

theorem localizedBlock_good {K : Str} (hK : K.all isKeyChar = true) (hK0 : K ≠ [])
    {x : Option LocalizedString} (hx : ∀ ls, x = some ls → goodLS ls) :
    ∀ t ∈ localizedBlock K x, goodTriple t := by
  intro t ht
  cases x with
  | none => cases ht
  | some ls =>
    have hls := hx ls rfl
    rcases List.mem_cons.mp ht with rfl | ht
    · exact ⟨hK, hls.1, fun lo h => nomatch h⟩
    · exact locLines_good hK hK0 hls.2 t ht

theorem iconBlock_good {K : Str} (hK : K.all isKeyChar = true) (hK0 : K ≠ [])
    {x : Option IconString} (hx : ∀ ic, x = some ic → goodIS ic) :
    ∀ t ∈ iconBlock K x, goodTriple t := by
  intro t ht
  cases x with
  | none => cases ht
  | some ic =>
    have hic := hx ic rfl
    rcases List.mem_cons.mp ht with rfl | ht
    · exact ⟨hK, hic.1, fun lo h => nomatch h⟩
    · exact locLines_good hK hK0 hic.2 t ht

theorem keywordsBlock_good {x : Option LocalizedStringList}
    (hx : ∀ kl, x = some kl → goodLSL kl) : ∀ t ∈ keywordsBlock x, goodTriple t := by
  intro t ht
  cases x with
  | none => cases ht
  | some kl =>
    have hkl := hx kl rfl
    rcases List.mem_cons.mp ht with rfl | ht
    · exact ⟨show (S "Keywords").all isKeyChar = true by decide,
        cleanStr_joinSemi hkl.1, fun lo h => nomatch h⟩
    · rcases List.mem_map.mp ht with ⟨p, hp, rfl⟩
      refine ⟨show (S "Keywords").all isKeyChar = true by decide,
        cleanStr_joinSemi (hkl.2 p hp).2, ?_⟩
      intro lo h
      cases h
      exact ⟨show S "Keywords" ≠ [] by decide, (hkl.2 p hp).1⟩

theorem entryKVs_good {q : Str × List Entry} (hq : goodBucket q) :
    ∀ t ∈ entryKVs q.1 q.2, goodTriple t := by
  intro t ht
  rcases List.mem_map.mp ht with ⟨e, he, rfl⟩
  have hge := hq.2 e he
  exact ⟨hq.1, hge.1, fun lo h => hge.2 lo h⟩

theorem emittedKVs_good {d : DesktopEntry} (hwf : docWF d) :
    ∀ t ∈ emittedKVs d, goodTriple t := by
  intro t ht
  unfold emittedKVs at ht
  simp only [List.append_assoc, List.cons_append] at ht
  rcases List.mem_cons.mp ht with rfl | ht
  · exact ⟨show (S "Type").all isKeyChar = true by decide,
      asStr_clean d.entry_type, fun lo h => nomatch h⟩
  rcases List.mem_append.mp ht with ht | ht
  · exact optLine_good (by decide) hwf.versionF t ht
  rcases List.mem_cons.mp ht with rfl | ht
  · exact ⟨show (S "Name").all isKeyChar = true by decide,
      hwf.nameF.1, fun lo h => nomatch h⟩
  rcases List.mem_append.mp ht with ht | ht
  · exact locLines_good (by decide) (by decide) hwf.nameF.2 t ht
  rcases List.mem_append.mp ht with ht | ht
  · exact localizedBlock_good (by decide) (by decide) hwf.genericF t ht
  rcases List.mem_append.mp ht with ht | ht
  · exact optBoolLine_good (by decide) _ t ht
  rcases List.mem_append.mp ht with ht | ht
  · exact localizedBlock_good (by decide) (by decide) hwf.commentF t ht
  rcases List.mem_append.mp ht with ht | ht
  · exact iconBlock_good (by decide) (by decide) hwf.iconF t ht
  rcases List.mem_append.mp ht with ht | ht
  · exact optBoolLine_good (by decide) _ t ht
  rcases List.mem_append.mp ht with ht | ht
  · exact optListLine_good (by decide) hwf.osiF t ht
  rcases List.mem_append.mp ht with ht | ht
  · exact optListLine_good (by decide) hwf.nsiF t ht
  rcases List.mem_append.mp ht with ht | ht
  · exact optBoolLine_good (by decide) _ t ht
  rcases List.mem_append.mp ht with ht | ht
  · exact optLine_good (by decide) hwf.tryF t ht
  rcases List.mem_append.mp ht with ht | ht
  · exact optLine_good (by decide) hwf.execF t ht
  rcases List.mem_append.mp ht with ht | ht
  · exact optLine_good (by decide) hwf.pathF t ht
  rcases List.mem_append.mp ht with ht | ht
  · exact optBoolLine_good (by decide) _ t ht
  rcases List.mem_append.mp ht with ht | ht
  · exact optListLine_good (by decide) hwf.actionsF t ht
  rcases List.mem_append.mp ht with ht | ht
  · exact optListLine_good (by decide) hwf.mimeF t ht
  rcases List.mem_append.mp ht with ht | ht
  · exact optListLine_good (by decide) hwf.categoriesF t ht
  rcases List.mem_append.mp ht with ht | ht
  · exact optListLine_good (by decide) hwf.implementsF t ht
  rcases List.mem_append.mp ht with ht | ht
  · exact keywordsBlock_good hwf.keywordsF t ht
  rcases List.mem_append.mp ht with ht | ht
  · exact optBoolLine_good (by decide) _ t ht
  rcases List.mem_append.mp ht with ht | ht
  · exact optLine_good (by decide) hwf.wmF t ht
  rcases List.mem_append.mp ht with ht | ht
  · exact optLine_good (by decide) hwf.urlF t ht
  rcases List.mem_append.mp ht with ht | ht
  · exact optBoolLine_good (by decide) _ t ht
  rcases List.mem_append.mp ht with ht | ht
  · exact optBoolLine_good (by decide) _ t ht
  rcases List.mem_flatMap.mp ht with ⟨q, hq, htq⟩
  exact entryKVs_good (hwf.unknownF q hq).1 t htq

theorem mkLine_clean {t : KV} (ht : goodTriple t) : cleanStr (mkLine t) := by
  obtain ⟨k, lo, v⟩ := t
  cases lo with
  | none =>
    intro c hc
    unfold mkLine at hc
    rcases List.mem_append.mp hc with h | h
    · exact nonws_clean (isKeyChar_ne (List.all_eq_true.mp ht.1 c h)).1
    · rcases List.mem_cons.mp h with rfl | h
      · exact ⟨by decide, by decide⟩
      · exact ht.2.1 c h
  | some l =>
    obtain ⟨hk0, hcl⟩ := ht.2.2 l rfl
    have hrep := (cleanLocale_repr hcl).2.2
    intro c hc
    unfold mkLine at hc
    rcases List.mem_append.mp hc with h | h
    · exact nonws_clean (isKeyChar_ne (List.all_eq_true.mp ht.1 c h)).1
    rcases List.mem_cons.mp h with rfl | h
    · exact ⟨by decide, by decide⟩
    rcases List.mem_append.mp h with h | h
    · exact hrep c h
    rcases List.mem_cons.mp h with rfl | h
    · exact ⟨by decide, by decide⟩
    rcases List.mem_cons.mp h with rfl | h
    · exact ⟨by decide, by decide⟩
    · exact ht.2.1 c h

theorem commentLine_clean {c : Comment}
    (h : c.is_blank = false →
      trim ('#' :: c.content) = '#' :: c.content ∧ cleanStr c.content) :
    cleanStr (commentLine c) := by
  unfold commentLine
  rcases hb : c.is_blank
  · simp only [hb, if_false, Bool.false_eq_true]
    intro x hx
    rcases List.mem_cons.mp hx with rfl | hx
    · exact ⟨by decide, by decide⟩
    · exact (h hb).2 x hx
  · simp only [hb, if_true]
    intro x hx
    cases hx

theorem headerLine_clean {name : Str} (h : cleanStr name) : cleanStr (headerLine name) := by
  intro c hc
  unfold headerLine at hc
  rcases List.mem_cons.mp hc with rfl | hc
  · exact ⟨by decide, by decide⟩
  rcases List.mem_append.mp hc with hc | hc
  · exact h c hc
  · rcases List.mem_singleton.mp hc with rfl
    exact ⟨by decide, by decide⟩

theorem serializeLines_clean {d : DesktopEntry} (hwf : docWF d) :
    ∀ l ∈ serializeLines d, cleanStr l := by
  intro l hl
  unfold serializeLines at hl
  rcases List.mem_append.mp hl with hl | hl
  · rcases List.mem_append.mp hl with hl | hl
    · rcases List.mem_map.mp hl with ⟨c, hc, rfl⟩
      exact commentLine_clean (hwf.commsF c hc)
    rcases List.mem_cons.mp hl with rfl | hl
    · exact headerLine_clean (by unfold cleanStr; decide)
    · rcases List.mem_map.mp hl with ⟨t, htm, rfl⟩
      exact mkLine_clean (emittedKVs_good hwf t htm)
  · rcases List.mem_flatMap.mp hl with ⟨p, hp, hlp⟩
    unfold groupBlock at hlp
    rcases List.mem_cons.mp hlp with rfl | hlp
    · intro c hc
      cases hc
    rcases List.mem_cons.mp hlp with rfl | hlp
    · have hn := hwf.addNames p hp
      rw [hn.2.1]
      exact headerLine_clean hn.2.2
    · rcases List.mem_map.mp hlp with ⟨t, htm, rfl⟩
      rcases List.mem_flatMap.mp htm with ⟨q, hq, htq⟩
      exact mkLine_clean (entryKVs_good (hwf.addEntries p hp q hq) t htq)

theorem splitChar_joinLines {ls : List Str} (h : ∀ l ∈ ls, '\n' ∉ l) :
    splitChar '\n' (joinLines ls) = ls ++ [[]] := by
  induction ls with
  | nil => rfl
  | cons l rest ih =>
    rw [show joinLines (l :: rest) = l ++ '\n' :: joinLines rest from rfl]
    rw [splitChar_append_cons (h l (by simp))]
    rw [ih (fun x hx => h x (List.mem_cons_of_mem _ hx))]
    rfl

theorem rustLines_joinLines {ls : List Str} (h : ∀ l ∈ ls, cleanStr l) :
    rustLines (joinLines ls) = ls := by
  unfold rustLines
  rw [splitChar_joinLines (fun l hl hm => ((h l hl) '\n' hm).1 rfl)]
  dsimp only
  rw [if_pos (List.getLast?_concat ls), List.dropLast_concat]
  have hmap : ∀ (ms : List Str), (∀ l ∈ ms, '\r' ∉ l) → ms.map stripCR = ms := by
    intro ms
    induction ms with
    | nil => intro hm; rfl
    | cons x xs ih =>
      intro hm
      rw [List.map_cons, stripCR_eq_self (hm x (by simp)),
        ih (fun y hy => hm y (List.mem_cons_of_mem _ hy))]
  exact hmap ls (fun l hl hm => ((h l hl) '\r' hm).2 rfl)

end DesktopEntrySpec

namespace DesktopEntrySpec

theorem runLines_comments {cs : List Comment} :
    ∀ (n : Nat) (st : PState), st.current = none →
    (∀ c ∈ cs, c.is_blank = false →
      trim ('#' :: c.content) = '#' :: c.content ∧ cleanStr c.content) →
    ∃ cs₂, runLines (cs.map commentLine) n st =
      some (.ok { st with comments := st.comments ++ cs₂ }) := by
  induction cs with
  | nil =>
    intro n st hcur _
    exact ⟨[], by simp [runLines]⟩
  | cons c cs ih =>
    intro n st hcur hgood
    rw [List.map_cons]
    simp only [runLines]
    rcases hb : c.is_blank
    · rw [show commentLine c = '#' :: c.content by simp [commentLine, hb]]
      rw [stepLine_comment_none hcur (hgood c (by simp) hb).1]
      dsimp only
      obtain ⟨cs₂, hrest⟩ := ih (n + 1)
        { st with comments := st.comments ++ [⟨n, c.content, false⟩] } hcur
        (fun c' hc' => hgood c' (List.mem_cons_of_mem _ hc'))
      refine ⟨⟨n, c.content, false⟩ :: cs₂, ?_⟩
      rw [hrest]
      simp
    · rw [show commentLine c = [] by simp [commentLine, hb]]
      rw [stepLine_blank_none hcur]
      dsimp only
      obtain ⟨cs₂, hrest⟩ := ih (n + 1)
        { st with comments := st.comments ++ [⟨n, [], true⟩] } hcur
        (fun c' hc' => hgood c' (List.mem_cons_of_mem _ hc'))
      refine ⟨⟨n, [], true⟩ :: cs₂, ?_⟩
      rw [hrest]
      simp

theorem runLines_kvs {g : Str} :
    ∀ (ts : List KV) (n : Nat) (st : PState), st.current = some g →
    (∀ t ∈ ts, goodTriple t) →
    runLines (ts.map mkLine) n st =
      some (.ok ⟨updateGroup st.groups g (fun gd => ts.foldl pushKV gd), st.current,
        st.comments⟩) := by
  intro ts
  induction ts with
  | nil =>
    intro n st hcur _
    simp only [List.map_nil, runLines, List.foldl_nil]
    rw [updateGroup_id]
  | cons t ts ih =>
    intro n st hcur hgood
    have hg := hgood t (by simp)
    obtain ⟨k, lo, v⟩ := t
    rcases lo with _ | lo
    · rw [List.map_cons]
      simp only [runLines]
      rw [show mkLine (k, none, v) = k ++ '=' :: v from rfl]
      rw [stepLine_kv_untagged hcur hg.1]
      dsimp only
      rw [ih (n + 1) ⟨updateGroup st.groups g (fun gd => pushEntry gd k ⟨k, none, v⟩),
        st.current, st.comments⟩ hcur (fun t' ht' => hgood t' (List.mem_cons_of_mem _ ht'))]
      dsimp only
      rw [updateGroup_comp]
      rfl
    · obtain ⟨hk0, hcl⟩ := hg.2.2 lo rfl
      obtain ⟨hRe, hRb, -⟩ := cleanLocale_repr hcl
      rw [List.map_cons]
      simp only [runLines]
      rw [show mkLine (k, some lo, v) =
        k ++ '[' :: (Locale.toStringRepr lo ++ ']' :: '=' :: v) from rfl]
      rw [stepLine_kv_tagged hcur hg.1 hk0 hRe hRb]
      dsimp only
      rw [ih (n + 1) ⟨updateGroup st.groups g
          (fun gd => pushEntry gd k ⟨k, some (Locale.fromString lo.toStringRepr), v⟩),
        st.current, st.comments⟩ hcur (fun t' ht' => hgood t' (List.mem_cons_of_mem _ ht'))]
      dsimp only
      rw [updateGroup_comp]
      rfl

theorem updateGroup_append_fresh {gs : List (Str × GroupData)} {name : Str}
    (h : alookup name gs = none) (gd : GroupData) (f : GroupData → GroupData) :
    updateGroup (gs ++ [(name, gd)]) name f = gs ++ [(name, f gd)] := by
  induction gs with
  | nil => simp [updateGroup]
  | cons q rest ih =>
    obtain ⟨n', gd'⟩ := q
    simp only [alookup] at h
    by_cases hn : n' = name
    · rw [if_pos hn] at h
      cases h
    · rw [if_neg hn] at h
      rw [List.cons_append]
      simp only [updateGroup]
      rw [if_neg hn, ih h]
      rw [List.cons_append]

theorem runLines_groupBlock {n : Nat} {st : PState} {g : Str} (p : Group)
    (hcur : st.current = some g)
    (hfresh : alookup p.name st.groups = none)
    (hgood : ∀ q ∈ p.entries, q.1.all isKeyChar = true ∧ ∀ e ∈ q.2, goodEntry q.1 e) :
    runLines (groupBlock p) n st =
      some (.ok ⟨st.groups ++ [(p.name, buildGD (groupTriples p))], some p.name,
        st.comments⟩) := by
  have hts : ∀ t ∈ groupTriples p, goodTriple t := by
    intro t ht
    rcases List.mem_flatMap.mp ht with ⟨q, hq, htq⟩
    exact entryKVs_good ⟨(hgood q hq).1, (hgood q hq).2⟩ t htq
  simp only [groupBlock, runLines]
  rw [stepLine_blank_some hcur]
  dsimp only
  rw [stepLine_header p.name hfresh]
  dsimp only
  rw [show ((p.entries.flatMap (fun kv => entryKVs kv.1 kv.2)).map mkLine) =
    (groupTriples p).map mkLine from rfl]
  rw [runLines_kvs (groupTriples p) (n + 1 + 1) _ rfl hts]
  dsimp only
  rw [updateGroup_append_fresh hfresh]
  rfl

theorem runLines_groups :
    ∀ (gps : List (Str × Group)) (n : Nat) (st : PState) (g : Str),
    st.current = some g →
    (gps.map (fun p => p.2.name)).Nodup →
    (∀ p ∈ gps, alookup p.2.name st.groups = none) →
    (∀ p ∈ gps, ∀ q ∈ p.2.entries, q.1.all isKeyChar = true ∧ ∀ e ∈ q.2, goodEntry q.1 e) →
    ∃ cur, runLines (gps.flatMap (fun p => groupBlock p.2)) n st =
      some (.ok ⟨st.groups ++ gps.map (fun p => (p.2.name, buildGD (groupTriples p.2))),
        some cur, st.comments⟩) := by
  intro gps
  induction gps with
  | nil =>
    intro n st g hcur _ _ _
    refine ⟨g, ?_⟩
    simp only [List.flatMap_nil, runLines, List.map_nil, List.append_nil]
    rw [← hcur]
  | cons p rest ih =>
    intro n st g hcur hnodup hfresh hgood
    rw [List.flatMap_cons]
    rw [runLines_append]
    rw [runLines_groupBlock p.2 hcur (hfresh p (by simp)) (hgood p (by simp))]
    dsimp only
    rw [List.map_cons] at hnodup
    have hnd := List.nodup_cons.mp hnodup
    have hfresh' : ∀ q ∈ rest,
        alookup q.2.name (st.groups ++ [(p.2.name, buildGD (groupTriples p.2))]) = none := by
      intro q hq
      rw [alookup_append_single]
      rw [hfresh q (List.mem_cons_of_mem _ hq)]
      dsimp only
      rw [if_neg ?_]
      intro he
      exact hnd.1 (he ▸ List.mem_map.mpr ⟨q, hq, rfl⟩)
    obtain ⟨cur, hrest⟩ := ih (n + (groupBlock p.2).length)
      ⟨st.groups ++ [(p.2.name, buildGD (groupTriples p.2))], some p.2.name, st.comments⟩
      p.2.name rfl hnd.2 hfresh'
      (fun q hq => hgood q (List.mem_cons_of_mem _ hq))
    refine ⟨cur, ?_⟩
    rw [hrest]
    dsimp only
    rw [List.map_cons, List.append_assoc, List.singleton_append]

theorem alookup_foldl_pushKV (k : Str) :
    ∀ (ts : List KV) (gd : GroupData),
    alookup k (ts.foldl pushKV gd) =
      match alookup k gd, (ts.filter (fun t => t.1 = k)).map tripleEntry with
      | none, [] => none
      | none, es => some es
      | some es₀, es => some (es₀ ++ es) := by
  intro ts
  induction ts with
  | nil =>
    intro gd
    simp only [List.foldl_nil, List.filter_nil, List.map_nil]
    rcases h : alookup k gd with _ | es₀
    · rfl
    · dsimp only
      rw [List.append_nil]
  | cons t ts ih =>
    intro gd
    rw [List.foldl_cons, List.filter_cons]
    by_cases ht : t.1 = k
    · rw [if_pos (by simpa using ht)]
      rw [ih (pushKV gd t)]
      rw [show pushKV gd t = pushEntry gd t.1 (tripleEntry t) from rfl]
      rw [alookup_pushEntry, if_pos ht, List.map_cons]
      rcases h : alookup k gd with _ | es₀
      · dsimp only [Option.getD]
        rcases hf : (ts.filter (fun t => t.1 = k)).map tripleEntry with _ | ⟨e, es⟩
      -- in both subcases the two matches agree
        · rfl
        · rfl
      · dsimp only [Option.getD]
        rw [List.append_assoc, List.singleton_append]
    · rw [if_neg (by simpa using ht)]
      rw [ih (pushKV gd t)]
      rw [show pushKV gd t = pushEntry gd t.1 (tripleEntry t) from rfl]
      rw [alookup_pushEntry, if_neg ht]

end DesktopEntrySpec

namespace DesktopEntrySpec

theorem filter_keyed_nil {k : Str} {l : List KV} (h : ∀ t ∈ l, t.1 ≠ k) :
    l.filter (fun t => t.1 = k) = [] := by
  rw [List.filter_eq_nil_iff]
  intro t ht
  simpa using h t ht

theorem mem_optLine_key {K : Str} {x : Option Str} {t : KV} (ht : t ∈ optLine K x) :
    t.1 = K := by
  cases x with
  | none => cases ht
  | some v =>
    rcases List.mem_singleton.mp ht with rfl
    rfl

theorem mem_optBoolLine_key {K : Str} {x : Option Bool} {t : KV}
    (ht : t ∈ optBoolLine K x) : t.1 = K := by
  cases x with
  | none => cases ht
  | some b =>
    rcases List.mem_singleton.mp ht with rfl
    rfl

theorem mem_optListLine_key {K : Str} {x : Option (List Str)} {t : KV}
    (ht : t ∈ optListLine K x) : t.1 = K := by
  cases x with
  | none => cases ht
  | some xs =>
    rcases List.mem_singleton.mp ht with rfl
    rfl

theorem mem_locLines_key {K : Str} {m : List (Locale × Str)} {t : KV}
    (ht : t ∈ locLines K m) : t.1 = K := by
  rcases List.mem_map.mp ht with ⟨p, hp, rfl⟩
  rfl

theorem mem_localizedBlock_key {K : Str} {x : Option LocalizedString} {t : KV}
    (ht : t ∈ localizedBlock K x) : t.1 = K := by
  cases x with
  | none => cases ht
  | some ls =>
    rcases List.mem_cons.mp ht with rfl | ht
    · rfl
    · exact mem_locLines_key ht

theorem mem_iconBlock_key {K : Str} {x : Option IconString} {t : KV}
    (ht : t ∈ iconBlock K x) : t.1 = K := by
  cases x with
  | none => cases ht
  | some ic =>
    rcases List.mem_cons.mp ht with rfl | ht
    · rfl
    · exact mem_locLines_key ht

theorem mem_keywordsBlock_key {x : Option LocalizedStringList} {t : KV}
    (ht : t ∈ keywordsBlock x) : t.1 = S "Keywords" := by
  cases x with
  | none => cases ht
  | some kl =>
    rcases List.mem_cons.mp ht with rfl | ht
    · rfl
    · rcases List.mem_map.mp ht with ⟨p, hp, rfl⟩
      rfl

theorem mem_entryKVs_key {key : Str} {es : List Entry} {t : KV}
    (ht : t ∈ entryKVs key es) : t.1 = key := by
  rcases List.mem_map.mp ht with ⟨e, he, rfl⟩
  rfl

theorem filter_optLine_ne {K k : Str} (h : K ≠ k) {x : Option Str} :
    (optLine K x).filter (fun t => t.1 = k) = [] :=
  filter_keyed_nil (fun t ht => by rw [mem_optLine_key ht]; exact h)

theorem filter_optBoolLine_ne {K k : Str} (h : K ≠ k) {x : Option Bool} :
    (optBoolLine K x).filter (fun t => t.1 = k) = [] :=
  filter_keyed_nil (fun t ht => by rw [mem_optBoolLine_key ht]; exact h)

theorem filter_optListLine_ne {K k : Str} (h : K ≠ k) {x : Option (List Str)} :
    (optListLine K x).filter (fun t => t.1 = k) = [] :=
  filter_keyed_nil (fun t ht => by rw [mem_optListLine_key ht]; exact h)

theorem filter_locLines_ne {K k : Str} (h : K ≠ k) {m : List (Locale × Str)} :
    (locLines K m).filter (fun t => t.1 = k) = [] :=
  filter_keyed_nil (fun t ht => by rw [mem_locLines_key ht]; exact h)

theorem filter_localizedBlock_ne {K k : Str} (h : K ≠ k) {x : Option LocalizedString} :
    (localizedBlock K x).filter (fun t => t.1 = k) = [] :=
  filter_keyed_nil (fun t ht => by rw [mem_localizedBlock_key ht]; exact h)

theorem filter_iconBlock_ne {K k : Str} (h : K ≠ k) {x : Option IconString} :
    (iconBlock K x).filter (fun t => t.1 = k) = [] :=
  filter_keyed_nil (fun t ht => by rw [mem_iconBlock_key ht]; exact h)

theorem filter_keywordsBlock_ne {k : Str} (h : S "Keywords" ≠ k)
    {x : Option LocalizedStringList} :
    (keywordsBlock x).filter (fun t => t.1 = k) = [] :=
  filter_keyed_nil (fun t ht => by rw [mem_keywordsBlock_key ht]; exact h)

theorem filter_optLine_self {K : Str} (x : Option Str) :
    (optLine K x).filter (fun t => t.1 = K) = optLine K x := by
  cases x with
  | none => rfl
  | some v =>
    rw [show optLine K (some v) = [(K, none, v)] from rfl]
    rw [List.filter_cons, if_pos (decide_eq_true rfl)]
    rfl

theorem filter_locLines_self {K : Str} (m : List (Locale × Str)) :
    (locLines K m).filter (fun t => t.1 = K) = locLines K m := by
  induction m with
  | nil => rfl
  | cons p rest ih =>
    rw [show locLines K (p :: rest) = (K, some p.1, p.2) :: locLines K rest from rfl]
    rw [List.filter_cons, if_pos (decide_eq_true rfl), ih]

theorem emittedTail4_ne {d : DesktopEntry} {k : Str}
    (hu : ∀ q ∈ d.unknown_keys, knownKeys.contains q.1 = false)
    (hk : knownKeys.contains k = true)
    (h0 : S "GenericName" ≠ k)
    (h1 : S "NoDisplay" ≠ k)
    (h2 : S "Comment" ≠ k)
    (h3 : S "Icon" ≠ k)
    (h4 : S "Hidden" ≠ k)
    (h5 : S "OnlyShowIn" ≠ k)
    (h6 : S "NotShowIn" ≠ k)
    (h7 : S "DBusActivatable" ≠ k)
    (h8 : S "TryExec" ≠ k)
    (h9 : S "Exec" ≠ k)
    (h10 : S "Path" ≠ k)
    (h11 : S "Terminal" ≠ k)
    (h12 : S "Actions" ≠ k)
    (h13 : S "MimeType" ≠ k)
    (h14 : S "Categories" ≠ k)
    (h15 : S "Implements" ≠ k)
    (h16 : S "Keywords" ≠ k)
    (h17 : S "StartupNotify" ≠ k)
    (h18 : S "StartupWMClass" ≠ k)
    (h19 : S "URL" ≠ k)
    (h20 : S "PrefersNonDefaultGPU" ≠ k)
    (h21 : S "SingleMainWindow" ≠ k)
    : ∀ t ∈ localizedBlock (S "GenericName") d.generic_name
      ++ (optBoolLine (S "NoDisplay") d.no_display
      ++ (localizedBlock (S "Comment") d.comment
      ++ (iconBlock (S "Icon") d.icon
      ++ (optBoolLine (S "Hidden") d.hidden
      ++ (optListLine (S "OnlyShowIn") d.only_show_in
      ++ (optListLine (S "NotShowIn") d.not_show_in
      ++ (optBoolLine (S "DBusActivatable") d.dbus_activatable
      ++ (optLine (S "TryExec") d.try_exec
      ++ (optLine (S "Exec") d.exec
      ++ (optLine (S "Path") d.path
      ++ (optBoolLine (S "Terminal") d.terminal
      ++ (optListLine (S "Actions") d.actions
      ++ (optListLine (S "MimeType") d.mime_type
      ++ (optListLine (S "Categories") d.categories
      ++ (optListLine (S "Implements") d.implements
      ++ (keywordsBlock d.keywords
      ++ (optBoolLine (S "StartupNotify") d.startup_notify
      ++ (optLine (S "StartupWMClass") d.startup_wm_class
      ++ (optLine (S "URL") d.url
      ++ (optBoolLine (S "PrefersNonDefaultGPU") d.prefers_non_default_gpu
      ++ (optBoolLine (S "SingleMainWindow") d.single_main_window
      ++ ((d.unknown_keys.flatMap (fun kv => entryKVs kv.1 kv.2)))))))))))))))))))))))), t.1 ≠ k := by
  intro t ht
  rcases List.mem_append.mp ht with ht | ht
  · rw [mem_localizedBlock_key ht]
    exact h0
  rcases List.mem_append.mp ht with ht | ht
  · rw [mem_optBoolLine_key ht]
    exact h1
  rcases List.mem_append.mp ht with ht | ht
  · rw [mem_localizedBlock_key ht]
    exact h2
  rcases List.mem_append.mp ht with ht | ht
  · rw [mem_iconBlock_key ht]
    exact h3
  rcases List.mem_append.mp ht with ht | ht
  · rw [mem_optBoolLine_key ht]
    exact h4
  rcases List.mem_append.mp ht with ht | ht
  · rw [mem_optListLine_key ht]
    exact h5
  rcases List.mem_append.mp ht with ht | ht
  · rw [mem_optListLine_key ht]
    exact h6
  rcases List.mem_append.mp ht with ht | ht
  · rw [mem_optBoolLine_key ht]
    exact h7
  rcases List.mem_append.mp ht with ht | ht
  · rw [mem_optLine_key ht]
    exact h8
  rcases List.mem_append.mp ht with ht | ht
  · rw [mem_optLine_key ht]
    exact h9
  rcases List.mem_append.mp ht with ht | ht
  · rw [mem_optLine_key ht]
    exact h10
  rcases List.mem_append.mp ht with ht | ht
  · rw [mem_optBoolLine_key ht]
    exact h11
  rcases List.mem_append.mp ht with ht | ht
  · rw [mem_optListLine_key ht]
    exact h12
  rcases List.mem_append.mp ht with ht | ht
  · rw [mem_optListLine_key ht]
    exact h13
  rcases List.mem_append.mp ht with ht | ht
  · rw [mem_optListLine_key ht]
    exact h14
  rcases List.mem_append.mp ht with ht | ht
  · rw [mem_optListLine_key ht]
    exact h15
  rcases List.mem_append.mp ht with ht | ht
  · rw [mem_keywordsBlock_key ht]
    exact h16
  rcases List.mem_append.mp ht with ht | ht
  · rw [mem_optBoolLine_key ht]
    exact h17
  rcases List.mem_append.mp ht with ht | ht
  · rw [mem_optLine_key ht]
    exact h18
  rcases List.mem_append.mp ht with ht | ht
  · rw [mem_optLine_key ht]
    exact h19
  rcases List.mem_append.mp ht with ht | ht
  · rw [mem_optBoolLine_key ht]
    exact h20
  rcases List.mem_append.mp ht with ht | ht
  · rw [mem_optBoolLine_key ht]
    exact h21
  rcases List.mem_flatMap.mp ht with ⟨q, hq, htq⟩
  rw [mem_entryKVs_key htq]
  intro he
  have hc := hu q hq
  rw [he] at hc
  rw [hc] at hk
  cases hk

theorem emittedTail14_ne {d : DesktopEntry} {k : Str}
    (hu : ∀ q ∈ d.unknown_keys, knownKeys.contains q.1 = false)
    (hk : knownKeys.contains k = true)
    (h0 : S "Path" ≠ k)
    (h1 : S "Terminal" ≠ k)
    (h2 : S "Actions" ≠ k)
    (h3 : S "MimeType" ≠ k)
    (h4 : S "Categories" ≠ k)
    (h5 : S "Implements" ≠ k)
    (h6 : S "Keywords" ≠ k)
    (h7 : S "StartupNotify" ≠ k)
    (h8 : S "StartupWMClass" ≠ k)
    (h9 : S "URL" ≠ k)
    (h10 : S "PrefersNonDefaultGPU" ≠ k)
    (h11 : S "SingleMainWindow" ≠ k)
    : ∀ t ∈ optLine (S "Path") d.path
      ++ (optBoolLine (S "Terminal") d.terminal
      ++ (optListLine (S "Actions") d.actions
      ++ (optListLine (S "MimeType") d.mime_type
      ++ (optListLine (S "Categories") d.categories
      ++ (optListLine (S "Implements") d.implements
      ++ (keywordsBlock d.keywords
      ++ (optBoolLine (S "StartupNotify") d.startup_notify
      ++ (optLine (S "StartupWMClass") d.startup_wm_class
      ++ (optLine (S "URL") d.url
      ++ (optBoolLine (S "PrefersNonDefaultGPU") d.prefers_non_default_gpu
      ++ (optBoolLine (S "SingleMainWindow") d.single_main_window
      ++ ((d.unknown_keys.flatMap (fun kv => entryKVs kv.1 kv.2)))))))))))))), t.1 ≠ k := by
  intro t ht
  rcases List.mem_append.mp ht with ht | ht
  · rw [mem_optLine_key ht]
    exact h0
  rcases List.mem_append.mp ht with ht | ht
  · rw [mem_optBoolLine_key ht]
    exact h1
  rcases List.mem_append.mp ht with ht | ht
  · rw [mem_optListLine_key ht]
    exact h2
  rcases List.mem_append.mp ht with ht | ht
  · rw [mem_optListLine_key ht]
    exact h3
  rcases List.mem_append.mp ht with ht | ht
  · rw [mem_optListLine_key ht]
    exact h4
  rcases List.mem_append.mp ht with ht | ht
  · rw [mem_optListLine_key ht]
    exact h5
  rcases List.mem_append.mp ht with ht | ht
  · rw [mem_keywordsBlock_key ht]
    exact h6
  rcases List.mem_append.mp ht with ht | ht
  · rw [mem_optBoolLine_key ht]
    exact h7
  rcases List.mem_append.mp ht with ht | ht
  · rw [mem_optLine_key ht]
    exact h8
  rcases List.mem_append.mp ht with ht | ht
  · rw [mem_optLine_key ht]
    exact h9
  rcases List.mem_append.mp ht with ht | ht
  · rw [mem_optBoolLine_key ht]
    exact h10
  rcases List.mem_append.mp ht with ht | ht
  · rw [mem_optBoolLine_key ht]
    exact h11
  rcases List.mem_flatMap.mp ht with ⟨q, hq, htq⟩
  rw [mem_entryKVs_key htq]
  intro he
  have hc := hu q hq
  rw [he] at hc
  rw [hc] at hk
  cases hk


end DesktopEntrySpec

namespace DesktopEntrySpec

theorem filter_emitted_type {d : DesktopEntry}
    (hu : ∀ q ∈ d.unknown_keys, knownKeys.contains q.1 = false) :
    (emittedKVs d).filter (fun t => t.1 = S "Type") =
      [(S "Type", none, d.entry_type.asStr)] := by
  unfold emittedKVs
  simp only [List.append_assoc, List.cons_append]
  rw [List.filter_cons, if_pos (decide_eq_true (show ((S "Type" : Str)) = S "Type" from rfl))]
  congr 1
  apply filter_keyed_nil
  intro t ht
  rcases List.mem_append.mp ht with ht | ht
  · rw [mem_optLine_key ht]
    decide
  rcases List.mem_cons.mp ht with rfl | ht
  · exact (show (S "Name" : Str) ≠ S "Type" by decide)
  rcases List.mem_append.mp ht with ht | ht
  · rw [mem_locLines_key ht]
    decide
  exact @emittedTail4_ne d (S "Type") hu (by decide) (by decide) (by decide) (by decide) (by
    decide) (by decide) (by decide) (by decide) (by decide) (by decide) (by decide) (by decide)
    (by decide) (by decide) (by decide) (by decide) (by decide) (by decide) (by decide) (by
    decide) (by decide) (by decide) (by decide) t ht

theorem filter_emitted_name {d : DesktopEntry}
    (hu : ∀ q ∈ d.unknown_keys, knownKeys.contains q.1 = false) :
    (emittedKVs d).filter (fun t => t.1 = S "Name") =
      (S "Name", none, d.name.default) :: locLines (S "Name") d.name.localized := by
  unfold emittedKVs
  simp only [List.append_assoc, List.cons_append]
  rw [List.filter_cons,
    if_neg (show ¬(decide ((S "Type" : Str) = S "Name") = true) by decide)]
  rw [List.filter_append,
    filter_optLine_ne (show (S "Version" : Str) ≠ S "Name" by decide), List.nil_append]
  rw [List.filter_cons, if_pos (decide_eq_true (show ((S "Name" : Str)) = S "Name" from rfl))]
  congr 1
  rw [List.filter_append, filter_locLines_self]
  rw [filter_keyed_nil (@emittedTail4_ne d (S "Name") hu (by decide) (by decide) (by decide) (by
    decide) (by decide) (by decide) (by decide) (by decide) (by decide) (by decide) (by decide)
    (by decide) (by decide) (by decide) (by decide) (by decide) (by decide) (by decide) (by
    decide) (by decide) (by decide) (by decide) (by decide))]
  rw [List.append_nil]

theorem filter_emitted_exec {d : DesktopEntry}
    (hu : ∀ q ∈ d.unknown_keys, knownKeys.contains q.1 = false) :
    (emittedKVs d).filter (fun t => t.1 = S "Exec") = optLine (S "Exec") d.exec := by
  unfold emittedKVs
  simp only [List.append_assoc, List.cons_append]
  rw [List.filter_cons,
    if_neg (show ¬(decide ((S "Type" : Str) = S "Exec") = true) by decide)]
  rw [List.filter_append,
    filter_optLine_ne (show (S "Version" : Str) ≠ S "Exec" by decide), List.nil_append]
  rw [List.filter_cons,
    if_neg (show ¬(decide ((S "Name" : Str) = S "Exec") = true) by decide)]
  rw [List.filter_append,
    filter_locLines_ne (show (S "Name" : Str) ≠ S "Exec" by decide), List.nil_append]
  rw [List.filter_append,
    filter_localizedBlock_ne (show (S "GenericName" : Str) ≠ S "Exec" by decide),
    List.nil_append]
  rw [List.filter_append,
    filter_optBoolLine_ne (show (S "NoDisplay" : Str) ≠ S "Exec" by decide), List.nil_append]
  rw [List.filter_append,
    filter_localizedBlock_ne (show (S "Comment" : Str) ≠ S "Exec" by decide), List.nil_append]
  rw [List.filter_append,
    filter_iconBlock_ne (show (S "Icon" : Str) ≠ S "Exec" by decide), List.nil_append]
  rw [List.filter_append,
    filter_optBoolLine_ne (show (S "Hidden" : Str) ≠ S "Exec" by decide), List.nil_append]
  rw [List.filter_append,
    filter_optListLine_ne (show (S "OnlyShowIn" : Str) ≠ S "Exec" by decide), List.nil_append]
  rw [List.filter_append,
    filter_optListLine_ne (show (S "NotShowIn" : Str) ≠ S "Exec" by decide), List.nil_append]
  rw [List.filter_append,
    filter_optBoolLine_ne (show (S "DBusActivatable" : Str) ≠ S "Exec" by decide),
    List.nil_append]
  rw [List.filter_append,
    filter_optLine_ne (show (S "TryExec" : Str) ≠ S "Exec" by decide), List.nil_append]
  rw [List.filter_append, filter_optLine_self]
  rw [filter_keyed_nil (@emittedTail14_ne d (S "Exec") hu (by decide) (by decide) (by decide) (by
    decide) (by decide) (by decide) (by decide) (by decide) (by decide) (by decide) (by decide)
    (by decide) (by decide))]
  rw [List.append_nil]

theorem alookup_buildGD_type {d : DesktopEntry}
    (hu : ∀ q ∈ d.unknown_keys, knownKeys.contains q.1 = false) :
    alookup (S "Type") (buildGD (emittedKVs d)) =
      some [⟨S "Type", none, d.entry_type.asStr⟩] := by
  rw [show buildGD (emittedKVs d) = (emittedKVs d).foldl pushKV [] from rfl]
  rw [alookup_foldl_pushKV, filter_emitted_type hu]
  rfl

theorem alookup_buildGD_name {d : DesktopEntry}
    (hu : ∀ q ∈ d.unknown_keys, knownKeys.contains q.1 = false) :
    alookup (S "Name") (buildGD (emittedKVs d)) =
      some (⟨S "Name", none, d.name.default⟩ ::
        d.name.localized.map (fun p =>
          (⟨S "Name", some (Locale.fromString (Locale.toStringRepr p.1)), p.2⟩ : Entry))) := by
  rw [show buildGD (emittedKVs d) = (emittedKVs d).foldl pushKV [] from rfl]
  rw [alookup_foldl_pushKV, filter_emitted_name hu]
  rw [List.map_cons]
  rw [show locLines (S "Name") d.name.localized =
    d.name.localized.map (fun p => ((S "Name", some p.1, p.2) : KV)) from rfl]
  rw [List.map_map]
  rfl

theorem alookup_buildGD_exec {d : DesktopEntry}
    (hu : ∀ q ∈ d.unknown_keys, knownKeys.contains q.1 = false) :
    alookup (S "Exec") (buildGD (emittedKVs d)) =
      d.exec.map (fun v => [⟨S "Exec", none, v⟩]) := by
  rw [show buildGD (emittedKVs d) = (emittedKVs d).foldl pushKV [] from rfl]
  rw [alookup_foldl_pushKV, filter_emitted_exec hu]
  cases d.exec with
  | none => rfl
  | some v => rfl

theorem fromStr_asStr (ty : DesktopEntryType) :
    DesktopEntryType.fromStr ty.asStr = some ty := by
  cases ty <;> rfl

theorem foldl_lsStep_default_tagged :
    ∀ (es : List Entry) (acc : LocalizedString), (∀ e ∈ es, e.locale.isSome = true) →
    (es.foldl lsStep acc).default = acc.default := by
  intro es
  induction es with
  | nil =>
    intro acc _
    rfl
  | cons e rest ih =>
    intro acc h
    rw [List.foldl_cons]
    rw [ih _ (fun e' he' => h e' (List.mem_cons_of_mem _ he'))]
    unfold lsStep
    rcases hlo : e.locale with _ | lo
    · have he := h e (by simp)
      rw [hlo] at he
      cases he
    · rfl

theorem buildDoc_ok_of {groups : List (Str × GroupData)} {cs : List Comment} {md : GroupData}
    {tE : Entry} {ty : DesktopEntryType} {nameEs : List Entry}
    (hmd : alookup dE groups = some md)
    (hT : (alookup (S "Type") md).bind List.head? = some tE)
    (hty : DesktopEntryType.fromStr tE.value = some ty)
    (hN : alookup (S "Name") md = some nameEs) :
    ∃ d', buildDoc groups cs = .ok d' := by
  unfold buildDoc
  rw [hmd]
  dsimp only
  rw [hT]
  dsimp only
  rw [hty]
  dsimp only
  rw [hN]
  exact ⟨_, rfl⟩

end DesktopEntrySpec

namespace DesktopEntrySpec

set_option maxHeartbeats 2000000 in
theorem runLines_serialize_tail {d : DesktopEntry} (hwf : docWF d) (n : Nat)
    (cs : List Comment) :
    ∃ cur rest,
      runLines ((headerLine dE :: (emittedKVs d).map mkLine)
          ++ d.additional_groups.flatMap (fun p => groupBlock p.2)) n
        ⟨[], none, cs⟩ =
      some (.ok ⟨(dE, buildGD (emittedKVs d)) :: rest, some cur, cs⟩) := by
  have hnames : ∀ p ∈ d.additional_groups, p.2.name = p.1 :=
    fun p hp => (hwf.addNames p hp).2.1
  have hnodup : (d.additional_groups.map (fun p => p.2.name)).Nodup := by
    have hmeq : d.additional_groups.map (fun p => p.2.name) =
        d.additional_groups.map Prod.fst :=
      List.map_congr_left (fun p hp => hnames p hp)
    rw [hmeq]
    exact hwf.addNodup
  have hfresh : ∀ p ∈ d.additional_groups,
      alookup p.2.name [(dE, buildGD (emittedKVs d))] = none := by
    intro p hp
    have hne : ¬(dE = p.2.name) := by
      rw [hnames p hp]
      exact fun h => (hwf.addNames p hp).1 h.symm
    simp only [alookup]
    rw [if_neg hne]
  have hgood : ∀ p ∈ d.additional_groups, ∀ q ∈ p.2.entries,
      q.1.all isKeyChar = true ∧ ∀ e ∈ q.2, goodEntry q.1 e := by
    intro p hp q hq
    exact ⟨(hwf.addEntries p hp q hq).1, (hwf.addEntries p hp q hq).2⟩
  obtain ⟨cur, hC⟩ := runLines_groups d.additional_groups
    (n + 1 + ((emittedKVs d).map mkLine).length)
    ⟨[(dE, buildGD (emittedKVs d))], some dE, cs⟩ dE rfl hnodup hfresh hgood
  have hhdr : runLines [headerLine dE] n ⟨[], none, cs⟩ =
      some (.ok ⟨[(dE, [])], some dE, cs⟩) := by
    simp only [runLines]
    rw [@stepLine_header n ⟨[], none, cs⟩ dE rfl]
    dsimp only
    rw [List.nil_append]
  have hkvs : runLines ((emittedKVs d).map mkLine) (n + 1) ⟨[(dE, [])], some dE, cs⟩ =
      some (.ok ⟨[(dE, buildGD (emittedKVs d))], some dE, cs⟩) := by
    rw [runLines_kvs (emittedKVs d) (n + 1) ⟨[(dE, [])], some dE, cs⟩ rfl
      (emittedKVs_good hwf)]
    rw [show updateGroup [(dE, ([] : GroupData))] dE
        (fun gd => (emittedKVs d).foldl pushKV gd) = [(dE, buildGD (emittedKVs d))] by
      simp [updateGroup, buildGD]]
  refine ⟨cur, d.additional_groups.map (fun p => (p.2.name, buildGD (groupTriples p.2))), ?_⟩
  rw [show ((headerLine dE :: (emittedKVs d).map mkLine : List Str)
      ++ d.additional_groups.flatMap (fun p => groupBlock p.2))
      = [headerLine dE] ++ ((emittedKVs d).map mkLine
        ++ d.additional_groups.flatMap (fun p => groupBlock p.2)) by simp]
  rw [runLines_append, hhdr]
  dsimp only
  simp only [List.length_singleton]
  rw [runLines_append, hkvs]
  dsimp only
  rw [hC]
  dsimp only
  rw [List.singleton_append]

theorem runLines_serialize {d : DesktopEntry} (hwf : docWF d) :
    ∃ st : PState, runLines (rustLines (serialize d)) 1 ⟨[], none, []⟩ = some (.ok st)
      ∧ ∃ rest, st.groups = (dE, buildGD (emittedKVs d)) :: rest := by
  rw [show serialize d = joinLines (serializeLines d) from rfl]
  rw [rustLines_joinLines (serializeLines_clean hwf)]
  unfold serializeLines
  rw [List.append_assoc]
  rw [runLines_append]
  obtain ⟨cs₂, hA⟩ := runLines_comments 1 ⟨[], none, []⟩ rfl hwf.commsF
  rw [hA]
  dsimp only
  obtain ⟨cur, rest, hBC⟩ := runLines_serialize_tail hwf
    (1 + (d.comments.map commentLine).length) ([] ++ cs₂)
  rw [hBC]
  exact ⟨_, rfl, rest, rfl⟩

theorem parse_serialize {d : DesktopEntry} (hwf : docWF d) :
    ∃ d', parse (serialize d) = some (.ok d') ∧
      d'.entry_type = d.entry_type ∧ d'.name.default = d.name.default ∧
      d'.exec = d.exec := by
  obtain ⟨st, hrun, rest, hgroups⟩ := runLines_serialize hwf
  have hu : ∀ q ∈ d.unknown_keys, knownKeys.contains q.1 = false :=
    fun q hq => (hwf.unknownF q hq).2
  have hmd : alookup dE st.groups = some (buildGD (emittedKVs d)) := by
    rw [hgroups]
    simp [alookup]
  have hT : (alookup (S "Type") (buildGD (emittedKVs d))).bind List.head? =
      some ⟨S "Type", none, d.entry_type.asStr⟩ := by
    rw [alookup_buildGD_type hu]
    rfl
  have hty : DesktopEntryType.fromStr
      ((⟨S "Type", none, d.entry_type.asStr⟩ : Entry)).value = some d.entry_type :=
    fromStr_asStr d.entry_type
  have hN := alookup_buildGD_name hu
  obtain ⟨d', hb⟩ := @buildDoc_ok_of st.groups st.comments _ _ _ _ hmd hT hty hN
  obtain ⟨⟨tE, ty, htE, htyE, hdty⟩, ⟨nameEs, hN', hname⟩, -, -, -, -, -, -, -, -, -,
    -, hexec, -, -, -, -, -, -, -, -, -, -, -, -, -, -, -⟩ := buildDoc_ok_fields hmd hb
  refine ⟨d', ?_, ?_, ?_, ?_⟩
  · unfold parse
    rw [hrun]
    dsimp only
    rw [hb]
  · rw [hT] at htE
    cases htE
    rw [hty] at htyE
    cases htyE
    exact hdty
  · rw [hN] at hN'
    cases hN'
    rw [hname]
    unfold buildLocalizedString
    rw [List.foldl_cons]
    have htag : ∀ e ∈ d.name.localized.map (fun p =>
        (⟨S "Name", some (Locale.fromString (Locale.toStringRepr p.1)), p.2⟩ : Entry)),
        e.locale.isSome = true := by
      intro e he
      rcases List.mem_map.mp he with ⟨p, hp, rfl⟩
      rfl
    rw [foldl_lsStep_default_tagged _ _ htag]
    rfl
  · rw [hexec, parseOptionalString_eq, alookup_buildGD_exec hu]
    cases d.exec with
    | none => rfl
    | some v => rfl

end DesktopEntrySpec

namespace DesktopEntrySpec

/-- C2 (amended): for every input text containing no carriage-return
character on which `parse` succeeds producing document `d`, serializing `d`
and parsing the result again succeeds and yields a document whose
`entry_type`, `name.default`, and `exec` equal those of `d` exactly. -/
theorem c2_round_trip_cr_free :
    ∀ (s : Str), (∀ c ∈ s, c ≠ '\r') → ∀ (d : DesktopEntry),
    parse s = some (.ok d) →
    ∃ d', parse (serialize d) = some (.ok d') ∧
      d'.entry_type = d.entry_type ∧ d'.name.default = d.name.default ∧
      d'.exec = d.exec := by
  intro s hcr d h
  exact parse_serialize (parse_wf hcr h)

/-- Witness for C2: the round trip of the concrete carriage-return-free
input `wKV`, with both hypotheses discharged by evaluation. -/
theorem c2_round_trip_cr_free_witness :
    (∀ c ∈ wKV, c ≠ '\r') ∧
    parse wKV = some (.ok (docOf wKV)) ∧
    ∃ d', parse (serialize (docOf wKV)) = some (.ok d') ∧
      d'.entry_type = (docOf wKV).entry_type ∧
      d'.name.default = (docOf wKV).name.default ∧ d'.exec = (docOf wKV).exec :=
  ⟨by decide, by decide, c2_round_trip_cr_free wKV (by decide) (docOf wKV) (by decide)⟩

end DesktopEntrySpec
